import Mathlib

/-!
Verification development for the pertrs PERT/CPM scheduler.

The source program (src/pert.rs, src/dot.rs) builds a directed multigraph of
events (nodes) and tasks (edges) with petgraph, computes per-node
fastest-begin / latest-finish times by enumerating all simple paths, derives
per-edge floats, and renders the result as a Graphviz-style description.

Shallow embedding conventions:
* petgraph node indices are positions in a list `nodes : List Event`;
  edge indices are positions in `edges : List PEdge`.
* u32 arithmetic is modelled over `Nat` with explicit wraparound `% W`
  (`W = 2^32`), i.e. Rust release-mode semantics; in debug mode Rust would
  panic at exactly the points where the wrapped value differs from the
  mathematical one.
* `petgraph::algo::all_simple_paths` enumerates simple node paths; it is
  modelled by filtering all duplicate-free lists over the node indices.
  (For `from == to` petgraph would enumerate cycles through `from`; the
  program only ever calls that case for the start/end node of an accepted
  network, which has no incoming/outgoing edge, so both models return the
  empty enumeration there.)
* `Graph::find_edge(a, b)` walks `a`'s outgoing adjacency list, whose head
  is the most recently inserted edge; hence it returns the *last inserted*
  edge from `a` to `b`.  This is `findEdgeE` below.
-/

namespace Pertrs

/-- Task: the edge weight (src/pert.rs, struct Task). -/
structure Task where
  name : String
  duration : Nat
  total_float : Nat
  free_float : Nat
  deriving Repr, DecidableEq

/-- Task::new (floats initialized to 0). -/
def Task.new (name : String) (duration : Nat) : Task :=
  { name := name, duration := duration, total_float := 0, free_float := 0 }

/-- Task::is_critical_path: total_float == 0. -/
def Task.is_critical_path (t : Task) : Bool := t.total_float == 0

/-- Task::is_dummy_path: duration == 0. -/
def Task.is_dummy_path (t : Task) : Bool := t.duration == 0

/-- Event: the node weight (src/pert.rs, struct Event). -/
structure Event where
  label : Nat
  fastest_begin : Nat
  latest_finish : Nat
  deriving Repr, DecidableEq

/-- Event::new (times initialized to 0). -/
def Event.new (label : Nat) : Event :=
  { label := label, fastest_begin := 0, latest_finish := 0 }

/-- One directed edge of the petgraph `Graph<Event, Task>`: endpoints are
node indices, the weight is a `Task`. -/
structure PEdge where
  source : Nat
  target : Nat
  task : Task
  deriving Repr, DecidableEq

/-- The petgraph graph: nodes and edges in insertion order, indices are
list positions. -/
structure PertGraph where
  nodes : List Event
  edges : List PEdge
  deriving Repr, DecidableEq

/-- Modulus of u32 arithmetic. -/
def W : Nat := 4294967296

/-- Wrapping u32 subtraction (for operands < W). -/
def wsub (a b : Nat) : Nat := (a + W - b) % W

/-- Every edge endpoint is a valid node index (guaranteed for graphs built
by `toGraph`; petgraph enforces it at `add_edge`). -/
def wellIndexed (n : Nat) (E : List PEdge) : Prop :=
  ∀ e ∈ E, e.source < n ∧ e.target < n

deriving instance DecidableEq for Except

/-- Default edge used only to satisfy total list lookups. -/
def dE : PEdge := { source := 0, target := 0, task := Task.new "" 0 }

/-- Default event used only to satisfy total list lookups. -/
def dV : Event := Event.new 0

/-- Is there any edge u → v (petgraph `neighbors_directed` membership)? -/
def hasEdgeE (E : List PEdge) (u v : Nat) : Bool :=
  E.any fun e => e.source == u && e.target == v

/-- Graph::find_edge(u, v): the index of the last inserted edge u → v
(petgraph's adjacency list is in reverse insertion order and find_edge
returns its first match). -/
def findEdgeE (E : List PEdge) (u v : Nat) : Option Nat :=
  ((List.range E.length).filter fun k =>
    (E.getD k dE).source == u && (E.getD k dE).target == v).getLast?

/-- Duration used by the fold in compute_fastest_begin / compute_latest_finish
for the step u → v: `graph.edge_weight(graph.find_edge(u, v))`.
The `none` branch is unreachable on actual path steps. -/
def stepDurE (E : List PEdge) (u v : Nat) : Nat :=
  match findEdgeE E u v with
  | some k => (E.getD k dE).task.duration
  | none => 0

/-- Consecutive pairs of a list (iterator `tuple_windows`). -/
def pairsOf {α : Type} (p : List α) : List (α × α) := p.zip p.tail

/-- All consecutive steps are edges of the graph. -/
def chainB (E : List PEdge) (p : List Nat) : Bool :=
  (pairsOf p).all fun uv => hasEdgeE E uv.1 uv.2

/-- Decide whether `p` is a simple path from `a` to `b`: at least one edge,
no repeated node, all nodes valid, consecutively adjacent. -/
def isPathB (n : Nat) (E : List PEdge) (a b : Nat) (p : List Nat) : Bool :=
  (p.head? == some a) && (p.getLast? == some b) && decide (2 ≤ p.length) &&
    (p.all fun x => decide (x < n)) && decide p.Nodup && chainB E p

/-- All lists over `range n` of length at most `k`. -/
def listsLE (n : Nat) : Nat → List (List Nat)
  | 0 => [[]]
  | k + 1 => [] :: ((List.range n).flatMap fun x => (listsLE n k).map fun p => x :: p)

/-- Candidate lists for simple paths: a duplicate-free list over `n` values
has length at most `n`, so this candidate set is complete. -/
def pathCands (n : Nat) : List (List Nat) := listsLE n n

/-- The simple paths from `a` to `b` (the enumeration of
`petgraph::algo::all_simple_paths` up to duplicates, which the max/min
folds ignore). -/
def simplePathsE (n : Nat) (E : List PEdge) (a b : Nat) : List (List Nat) :=
  (pathCands n).filter fun p => isPathB n E a b p

/-- Durations of the steps of a node path, in order. -/
def durListE (E : List PEdge) (p : List Nat) : List Nat :=
  (pairsOf p).map fun uv => stepDurE E uv.1 uv.2

/-- The fold of compute_fastest_begin over one path:
`fold(0, |begin, step| begin + duration)` in u32. -/
def wrapFoldAdd (l : List Nat) : Nat :=
  l.foldl (fun a d => (a + d) % W) 0

/-- The fold of compute_latest_finish over one path:
`fold(T, |finish, step| finish - duration)` in u32. -/
def wrapFoldSub (t : Nat) (l : List Nat) : Nat :=
  l.foldl (fun a d => wsub a d) t

/-- Option-valued maximum of a list of Nat. -/
def listMax? : List Nat → Option Nat
  | [] => none
  | x :: xs =>
    some (match listMax? xs with
          | none => x
          | some m => max x m)

/-- Option-valued minimum of a list of Nat. -/
def listMin? : List Nat → Option Nat
  | [] => none
  | x :: xs =>
    some (match listMin? xs with
          | none => x
          | some m => min x m)

/-- compute_fastest_begin (src/pert.rs:113-124): maximum over all simple
paths of the duration sum, `.max().unwrap_or(0)`. -/
def fbE (n : Nat) (E : List PEdge) (a b : Nat) : Nat :=
  (listMax? ((simplePathsE n E a b).map fun p => wrapFoldAdd (durListE E p))).getD 0

/-- compute_latest_finish (src/pert.rs:126-140) with the total time `T`
(`fastest_begin` of the `to` node) passed explicitly: minimum over all
simple paths of `T` minus the successive durations, `.min().unwrap_or(T)`. -/
def lfE (n : Nat) (E : List PEdge) (t a b : Nat) : Nat :=
  (listMin? ((simplePathsE n E a b).map fun p => wrapFoldSub t (durListE E p))).getD t

/-- fastest_begin of the node at index `i`. -/
def nodeFB (g : PertGraph) (i : Nat) : Nat := (g.nodes.getD i dV).fastest_begin

/-- latest_finish of the node at index `i`. -/
def nodeLF (g : PertGraph) (i : Nat) : Nat := (g.nodes.getD i dV).latest_finish

/-- compute_fastest_begin on a graph (reads only the edge structure). -/
def compute_fastest_begin (g : PertGraph) (a b : Nat) : Nat :=
  fbE g.nodes.length g.edges a b

/-- compute_latest_finish on a graph (reads the already computed
fastest_begin of `b` and the edge structure). -/
def compute_latest_finish (g : PertGraph) (a b : Nat) : Nat :=
  lfE g.nodes.length g.edges (nodeFB g b) a b

/-- Node has no incoming edge (`neighbors_directed(n, Incoming).next().is_none()`). -/
def noInEdgeB (E : List PEdge) (i : Nat) : Bool :=
  E.all fun e => ! (e.target == i)

/-- Node has no outgoing edge. -/
def noOutEdgeB (E : List PEdge) (i : Nat) : Bool :=
  E.all fun e => ! (e.source == i)

/-- Indices of in-degree-0 nodes, in node order (start_node's collected Vec). -/
def inDeg0List (n : Nat) (E : List PEdge) : List Nat :=
  (List.range n).filter fun i => noInEdgeB E i

/-- Indices of out-degree-0 nodes, in node order. -/
def outDeg0List (n : Nat) (E : List PEdge) : List Nat :=
  (List.range n).filter fun i => noOutEdgeB E i

/-- start_node (src/pert.rs:79-94). -/
def start_node (g : PertGraph) : Except String Nat :=
  match inDeg0List g.nodes.length g.edges with
  | [] => .error "Start node is not exist"
  | [i] => .ok i
  | _ => .error "Start node is duplicated"

/-- end_node (src/pert.rs:96-111). -/
def end_node (g : PertGraph) : Except String Nat :=
  match outDeg0List g.nodes.length g.edges with
  | [] => .error "End node is not exist"
  | [i] => .ok i
  | _ => .error "End node is duplicated"

/-- Floats of one edge (src/pert.rs:142-157): both u32 subtractions, with the
u32 addition `fastest_begin + duration` wrapped as in the source. -/
structure Floats where
  total_float : Nat
  free_float : Nat

/-- compute_floats (src/pert.rs:146-157). -/
def compute_floats (g : PertGraph) (e : PEdge) : Floats :=
  { total_float := wsub (nodeLF g e.target) ((nodeFB g e.source + e.task.duration) % W),
    free_float := wsub (nodeFB g e.target) ((nodeFB g e.source + e.task.duration) % W) }

/-- Forward pass of Pert::new: set fastest_begin of every node.  The Rust
loop writes each node in turn; compute_fastest_begin reads only the edge
structure, never node weights, so writing all nodes simultaneously is the
same function. -/
def setFB (g : PertGraph) (s : Nat) : PertGraph :=
  { g with nodes := (List.range g.nodes.length).map fun i =>
      { g.nodes.getD i dV with fastest_begin := compute_fastest_begin g s i } }

/-- Backward pass of Pert::new: set latest_finish of every node (reads the
fastest_begin of the end node set by the forward pass, and the edges). -/
def setLF (g : PertGraph) (e : Nat) : PertGraph :=
  { g with nodes := (List.range g.nodes.length).map fun i =>
      { g.nodes.getD i dV with latest_finish := compute_latest_finish g i e } }

/-- Float pass of Pert::new: write both floats onto every edge (reads the
node times set by the two passes and each edge's own duration). -/
def setFloats (g : PertGraph) : PertGraph :=
  { g with edges := g.edges.map fun e =>
      { e with task :=
        { e.task with
            total_float := (compute_floats g e).total_float,
            free_float := (compute_floats g e).free_float } } }

/-- Pert::new (src/pert.rs:162-183): validate the start node, forward pass,
validate the end node, backward pass, float pass. -/
def Pert.new (g : PertGraph) : Except String PertGraph :=
  match start_node g with
  | .error m => .error m
  | .ok s =>
    let g1 := setFB g s
    match end_node g1 with
    | .error m => .error m
    | .ok e => .ok (setFloats (setLF g1 e))

/-- Result of a successful Pert::new run (the error case is never used by
the statements below, which always require success). -/
def pertOut (g : PertGraph) : PertGraph :=
  match Pert.new g with
  | .ok h => h
  | .error _ => { nodes := [], edges := [] }

/-- One input row `(from, to, weight, name)` (src/pert.rs, struct Row).
Field names `src`/`dst` stand for the Rust fields `from`/`to`, which are
keywords in Lean. -/
structure Row where
  src : Nat
  dst : Nat
  weight : Nat
  name : String
  deriving Repr, DecidableEq

/-- All labels mentioned by the rows, with repetitions. -/
def rowLabels (rows : List Row) : List Nat :=
  rows.flatMap fun r => [r.src, r.dst]

/-- DataLoader::to_graph (src/pert.rs:223-243), with the iteration order of
the label `HashSet` made explicit as the parameter `order`: one node per
distinct label in that order, then one edge per row in row order. -/
def toGraph (rows : List Row) (order : List Nat) : PertGraph :=
  { nodes := order.map fun l => Event.new l,
    edges := rows.map fun r =>
      { source := order.indexOf r.src,
        target := order.indexOf r.dst,
        task := Task.new r.name r.weight } }

/-- Node `i` has in-degree 0: no edge targets it. -/
def InDeg0 (E : List PEdge) (i : Nat) : Prop := ∀ e ∈ E, e.target ≠ i

/-- Node `i` has out-degree 0: no edge leaves it. -/
def OutDeg0 (E : List PEdge) (i : Nat) : Prop := ∀ e ∈ E, e.source ≠ i

/-!  Well-formedness notions used by the claims. -/

/-- Clean restatement of `isPathB`: `p` is a simple path from `a` to `b`. -/
def IsSP (n : Nat) (E : List PEdge) (a b : Nat) (p : List Nat) : Prop :=
  p.head? = some a ∧ p.getLast? = some b ∧ 2 ≤ p.length ∧
    (∀ x ∈ p, x < n) ∧ p.Nodup ∧
    ∀ uv ∈ pairsOf p, hasEdgeE E uv.1 uv.2 = true

/-- Every consecutive step of the list is an edge (a directed walk). -/
def IsChain (E : List PEdge) (p : List Nat) : Prop :=
  ∀ uv ∈ pairsOf p, hasEdgeE E uv.1 uv.2 = true

/-- Bool test for a simple directed cycle: a duplicate-free adjacency chain
whose last node has an edge back to its first node (a single node with a
self-loop counts). -/
def isCycleB (n : Nat) (E : List PEdge) (p : List Nat) : Bool :=
  (!p.isEmpty) && (p.all fun x => decide (x < n)) && decide p.Nodup &&
    chainB E p &&
    (match p.getLast?, p.head? with
     | some u, some h => hasEdgeE E u h
     | _, _ => false)

/-- The graph has no simple directed cycle.  Any directed cycle contains a
simple one, so this is ordinary acyclicity. -/
def AcyclicE (n : Nat) (E : List PEdge) : Prop :=
  ∀ p, isCycleB n E p = false

/-- Bounded acyclicity check over the complete candidate set. -/
def acyclicB (n : Nat) (E : List PEdge) : Bool :=
  (pathCands n).all fun p => ! isCycleB n E p

/-- Every edge's duration agrees with the duration `find_edge` reports for
its endpoint pair, i.e. parallel edges between the same events carry equal
durations.  Graphs without parallel edges satisfy this trivially. -/
def ParallelConsistent (E : List PEdge) : Prop :=
  ∀ e ∈ E, stepDurE E e.source e.target = e.task.duration

instance (E : List PEdge) : Decidable (ParallelConsistent E) := by
  unfold ParallelConsistent
  infer_instance

instance (n : Nat) (E : List PEdge) : Decidable (wellIndexed n E) := by
  unfold wellIndexed
  infer_instance

/-- Total duration of all edges; path duration sums are bounded by
`n * totalDur`, used to rule out u32 wraparound. -/
def totalDur (E : List PEdge) : Nat :=
  (E.map fun e => e.task.duration).sum

/-!  Concrete networks used as counterexamples and witnesses. -/

/-- Two parallel tasks 1 → 2 with durations 5 and 1, the 5 inserted first:
`find_edge` always selects the duration-1 edge. -/
def cxG1 : PertGraph := toGraph [⟨1, 2, 5, "a"⟩, ⟨1, 2, 1, "b"⟩] [1, 2]

/-- Parallel tasks 2 → 3 (durations 5 then 1) inside a network with a long
independent task 1 → 3. -/
def cxG2 : PertGraph :=
  toGraph [⟨2, 3, 5, "a"⟩, ⟨2, 3, 1, "b"⟩, ⟨1, 2, 1, "c"⟩, ⟨1, 3, 10, "d"⟩] [1, 2, 3]

/-- Parallel tasks 2 → 3 (durations 5 then 1) inside a network with enough
slack that the duration-5 edge's total float stays positive while its free
float underflows. -/
def cxG7 : PertGraph :=
  toGraph [⟨2, 3, 5, "a"⟩, ⟨2, 3, 1, "b"⟩, ⟨1, 2, 1, "c"⟩, ⟨3, 4, 1, "e"⟩,
    ⟨1, 4, 20, "d"⟩] [1, 2, 3, 4]

/-- A single zero-duration task: after the pipeline its edge is both a
dummy path and a critical path. -/
def cxG8 : PertGraph := toGraph [⟨1, 2, 0, "t"⟩] [1, 2]

/-- Scenario 2 of the spec (diamond network), used as a witness input. -/
def wG : PertGraph :=
  toGraph [⟨1, 2, 1, "a"⟩, ⟨1, 3, 5, "b"⟩, ⟨2, 3, 2, "c"⟩, ⟨3, 4, 3, "d"⟩] [1, 2, 3, 4]

/-- The rows of the diamond network (spec Scenario 2), used to compare two
node-allocation orders. -/
def wRows : List Row :=
  [⟨1, 2, 1, "a"⟩, ⟨1, 3, 5, "b"⟩, ⟨2, 3, 2, "c"⟩, ⟨3, 4, 3, "d"⟩]

/-!  Spec-side definitions.

The spec (§4.4) reads: "enumerate every simple path from `start` to `node`;
for each path, sum the durations of its edges in sequence; the
earliest-occurrence time for `node` is the maximum such sum over all paths
..., or 0 if `node == start`", together with §3: "Multiple parallel edges
between the same pair of events are permitted (parallel tasks)."  In a
multigraph a simple path is therefore a sequence of edges (tasks) visiting
no event twice.  The definitions below follow the spec's words and are the
comparison point for the refinement claims; the code definitions above are
the authority for what the program does. -/

/-- Sources of the edges of an edge path. -/
def epSources (E : List PEdge) (ks : List Nat) : List Nat :=
  ks.map fun j => (E.getD j dE).source

/-- Event sequence visited by an edge path. -/
def nodesOfEP (E : List PEdge) (ks : List Nat) : List Nat :=
  match ks.getLast? with
  | none => []
  | some k => epSources E ks ++ [(E.getD k dE).target]

/-- Consecutive edges of the sequence are linked target-to-source. -/
def epChainB (E : List PEdge) (ks : List Nat) : Bool :=
  (pairsOf ks).all fun kk => (E.getD kk.1 dE).target == (E.getD kk.2 dE).source

/-- Decide whether the edge-index sequence `ks` is a simple path from event
`a` to event `b`: nonempty, linked, visiting no event twice. -/
def isEdgePathB (n : Nat) (E : List PEdge) (a b : Nat) (ks : List Nat) : Bool :=
  (!ks.isEmpty) && (ks.all fun k => decide (k < E.length)) && epChainB E ks &&
    ((epSources E ks).head? == some a) &&
    ((ks.getLast?.map fun k => (E.getD k dE).target) == some b) &&
    decide (nodesOfEP E ks).Nodup &&
    ((nodesOfEP E ks).all fun x => decide (x < n))

/-- Clean restatement of `isEdgePathB`. -/
def IsEP (n : Nat) (E : List PEdge) (a b : Nat) (ks : List Nat) : Prop :=
  ks ≠ [] ∧ (∀ k ∈ ks, k < E.length) ∧
    (∀ q ∈ pairsOf ks, (E.getD q.1 dE).target = (E.getD q.2 dE).source) ∧
    (epSources E ks).head? = some a ∧
    (ks.getLast?.map fun k => (E.getD k dE).target) = some b ∧
    (nodesOfEP E ks).Nodup ∧
    ∀ x ∈ nodesOfEP E ks, x < n

/-- Exact duration sum of the steps of a node path. -/
def stepSumE (E : List PEdge) (p : List Nat) : Nat := (durListE E p).sum

/-- The edge path induced by a node path: the `find_edge` choice for every
step. -/
def epOf (E : List PEdge) (p : List Nat) : List Nat :=
  (pairsOf p).map fun uv => (findEdgeE E uv.1 uv.2).getD 0

/-- All simple edge paths from `a` to `b`.  A simple path visits no event
twice, hence uses pairwise distinct edges, so the duplicate-free lists of
edge indices are a complete candidate set. -/
def edgePathsE (n : Nat) (E : List PEdge) (a b : Nat) : List (List Nat) :=
  (pathCands E.length).filter fun ks => isEdgePathB n E a b ks

/-- Duration sum of an edge path (the spec's "sum the durations of its
edges in sequence"). -/
def epDurSum (E : List PEdge) (ks : List Nat) : Nat :=
  (ks.map fun k => (E.getD k dE).task.duration).sum

/-- Spec fastestBegin (§4.4): maximum duration sum over all simple paths
from `a` to `b`, or 0 when there is none. -/
def specFastestBegin (n : Nat) (E : List PEdge) (a b : Nat) : Nat :=
  (listMax? ((edgePathsE n E a b).map fun ks => epDurSum E ks)).getD 0

/-- Spec latestFinish (§4.4): minimum of `T` minus the duration sum over
all simple paths from `a` to `b`, or `T` when there is none.  `T` is the
already computed fastest_begin of the end node. -/
def specLatestFinish (n : Nat) (E : List PEdge) (t a b : Nat) : Nat :=
  (listMin? ((edgePathsE n E a b).map fun ks => t - epDurSum E ks)).getD t

/-- Relabel the endpoints of an edge (used to compare two runs of
`toGraph` whose label sets were iterated in different orders). -/
def emap (f : Nat → Nat) (e : PEdge) : PEdge :=
  { e with source := f e.source, target := f e.target }

/-!  Renderer (src/dot.rs). -/

/-- Display for Task: `"{}({})\nT: {} / F: {}"`. -/
def displayTask (t : Task) : String :=
  t.name ++ "(" ++ toString t.duration ++ ")\nT: " ++
    toString t.total_float ++ " / F: " ++ toString t.free_float

/-- Display for Event: `"{}\n{}..{}"`. -/
def displayEvent (ev : Event) : String :=
  toString ev.label ++ "\n" ++ toString ev.fastest_begin ++ ".." ++
    toString ev.latest_finish

/-- Escaper::write_char (src/dot.rs:98-106), one character at a time. -/
def escapeChar (c : Char) : List Char :=
  if c = '"' || c = '\\' then ['\\', c]
  else if c = '\n' then ['\\', 'l']
  else [c]

/-- The escaping filter applied to a character stream. -/
def escapeList (l : List Char) : List Char := l.flatMap escapeChar

/-- The escaping filter applied to a label string. -/
def escapeString (s : String) : String := ⟨escapeList s.data⟩

/-- Decoder for the escaped label syntax: a backslash escapes the next
character, with `\l` standing for a line break.  Used to state the
round-trip property of `escapeList`. -/
def unescapeList : List Char → List Char
  | [] => []
  | c :: rest =>
    if c = '\\' then
      match rest with
      | [] => []
      | d :: r2 => (if d = 'l' then '\n' else d) :: unescapeList r2
    else c :: unescapeList rest

/-- Style suffix of an edge statement (src/dot.rs:54-58): the match arms in
order, dummy first. -/
def styleSuffix (t : Task) : String :=
  if t.is_dummy_path then ", style=dashed"
  else if t.is_critical_path then ", style=bold"
  else ""

/-- One node statement of the rendered description. -/
def nodeStmt (i : Nat) (ev : Event) : String :=
  "    " ++ toString i ++ " [label=\"" ++ escapeString (displayEvent ev) ++ "\"]\n"

/-- One edge statement of the rendered description. -/
def edgeStmt (e : PEdge) : String :=
  "    " ++ toString e.source ++ " -> " ++ toString e.target ++
    " [label=\"" ++ escapeString (displayTask e.task) ++ "\"" ++
    styleSuffix e.task ++ "]\n"

/-- PertDot::graph_fmt (src/dot.rs:21-64): header, node statements, edge
statements, closing brace. -/
def dotRender (g : PertGraph) : String :=
  "digraph PERT \x7b\n    graph [rankdir = \"LR\"];\n" ++
    String.join (g.nodes.mapIdx fun i ev => nodeStmt i ev) ++
    String.join (g.edges.map fun e => edgeStmt e) ++
    "\x7d\n"

/-!  Lemmas about list maxima and minima. -/

theorem listMax?_eq_none_iff {l : List Nat} : listMax? l = none ↔ l = [] := by
  cases l with
  | nil => simp [listMax?]
  | cons x xs => simp [listMax?]

theorem listMin?_eq_none_iff {l : List Nat} : listMin? l = none ↔ l = [] := by
  cases l with
  | nil => simp [listMin?]
  | cons x xs => simp [listMin?]

theorem listMax?_mem {l : List Nat} {m : Nat} (h : listMax? l = some m) : m ∈ l := by
  induction l generalizing m with
  | nil => simp [listMax?] at h
  | cons x xs ih =>
    rw [listMax?] at h
    cases hx : listMax? xs with
    | none =>
      rw [hx] at h
      simp only [Option.some.injEq] at h
      simp [← h]
    | some m2 =>
      rw [hx] at h
      simp only [Option.some.injEq] at h
      rcases max_choice x m2 with hc | hc
      · rw [hc] at h
        simp [← h]
      · rw [hc] at h
        exact List.mem_cons_of_mem x (h ▸ ih hx)

theorem listMin?_mem {l : List Nat} {m : Nat} (h : listMin? l = some m) : m ∈ l := by
  induction l generalizing m with
  | nil => simp [listMin?] at h
  | cons x xs ih =>
    rw [listMin?] at h
    cases hx : listMin? xs with
    | none =>
      rw [hx] at h
      simp only [Option.some.injEq] at h
      simp [← h]
    | some m2 =>
      rw [hx] at h
      simp only [Option.some.injEq] at h
      rcases min_choice x m2 with hc | hc
      · rw [hc] at h
        simp [← h]
      · rw [hc] at h
        exact List.mem_cons_of_mem x (h ▸ ih hx)

theorem le_listMax? {l : List Nat} {x m : Nat} (hx : x ∈ l)
    (h : listMax? l = some m) : x ≤ m := by
  induction l generalizing m with
  | nil => simp at hx
  | cons y ys ih =>
    rw [listMax?] at h
    cases hy : listMax? ys with
    | none =>
      rw [hy] at h
      simp only [Option.some.injEq] at h
      have : ys = [] := listMax?_eq_none_iff.mp hy
      subst this
      simp at hx
      omega
    | some m2 =>
      rw [hy] at h
      simp only [Option.some.injEq] at h
      rcases List.mem_cons.mp hx with rfl | hmem
      · subst h
        exact le_max_left x m2
      · subst h
        exact le_trans (ih hmem hy) (le_max_right y m2)

theorem listMin?_le {l : List Nat} {x m : Nat} (hx : x ∈ l)
    (h : listMin? l = some m) : m ≤ x := by
  induction l generalizing m with
  | nil => simp at hx
  | cons y ys ih =>
    rw [listMin?] at h
    cases hy : listMin? ys with
    | none =>
      rw [hy] at h
      simp only [Option.some.injEq] at h
      have : ys = [] := listMin?_eq_none_iff.mp hy
      subst this
      simp at hx
      omega
    | some m2 =>
      rw [hy] at h
      simp only [Option.some.injEq] at h
      rcases List.mem_cons.mp hx with rfl | hmem
      · subst h
        exact min_le_left x m2
      · subst h
        exact le_trans (min_le_right y m2) (ih hmem hy)

theorem listMax?_congr {l1 l2 : List Nat} (h : ∀ x, x ∈ l1 ↔ x ∈ l2) :
    listMax? l1 = listMax? l2 := by
  cases h1 : listMax? l1 with
  | none =>
    have : l1 = [] := listMax?_eq_none_iff.mp h1
    subst this
    cases h2 : listMax? l2 with
    | none => rfl
    | some m2 =>
      have := (h m2).mpr (listMax?_mem h2)
      simp at this
  | some m1 =>
    cases h2 : listMax? l2 with
    | none =>
      have : l2 = [] := listMax?_eq_none_iff.mp h2
      subst this
      have := (h m1).mp (listMax?_mem h1)
      simp at this
    | some m2 =>
      have e1 : m1 ≤ m2 := le_listMax? ((h m1).mp (listMax?_mem h1)) h2
      have e2 : m2 ≤ m1 := le_listMax? ((h m2).mpr (listMax?_mem h2)) h1
      simp [le_antisymm e1 e2]

theorem listMin?_congr {l1 l2 : List Nat} (h : ∀ x, x ∈ l1 ↔ x ∈ l2) :
    listMin? l1 = listMin? l2 := by
  cases h1 : listMin? l1 with
  | none =>
    have : l1 = [] := listMin?_eq_none_iff.mp h1
    subst this
    cases h2 : listMin? l2 with
    | none => rfl
    | some m2 =>
      have := (h m2).mpr (listMin?_mem h2)
      simp at this
  | some m1 =>
    cases h2 : listMin? l2 with
    | none =>
      have : l2 = [] := listMin?_eq_none_iff.mp h2
      subst this
      have := (h m1).mp (listMin?_mem h1)
      simp at this
    | some m2 =>
      have e1 : m1 ≤ m2 := listMin?_le ((h m2).mpr (listMin?_mem h2)) h1
      have e2 : m2 ≤ m1 := listMin?_le ((h m1).mp (listMin?_mem h1)) h2
      simp [le_antisymm e2 e1]

theorem listMin?_map_sub (t : Nat) (l : List Nat) :
    listMin? (l.map fun x => t - x) = (listMax? l).map fun m => t - m := by
  induction l with
  | nil => rfl
  | cons x xs ih =>
    simp only [List.map_cons, listMin?, listMax?, ih]
    cases hx : listMax? xs with
    | none => simp
    | some m => simp; omega

/-!  Completeness of the candidate enumeration and path membership. -/

theorem mem_listsLE {n k : Nat} {p : List Nat} (hb : ∀ x ∈ p, x < n)
    (hl : p.length ≤ k) : p ∈ listsLE n k := by
  induction k generalizing p with
  | zero =>
    have : p = [] := List.length_eq_zero.mp (Nat.le_zero.mp hl)
    subst this
    simp [listsLE]
  | succ k ih =>
    cases p with
    | nil => simp [listsLE]
    | cons x xs =>
      simp only [listsLE, List.mem_cons, List.mem_flatMap, List.mem_map,
        List.mem_range]
      right
      refine ⟨x, hb x (by simp), xs, ih (fun y hy => hb y (by simp [hy])) ?_, rfl⟩
      simpa using hl

theorem nodup_bound_length {n : Nat} {p : List Nat} (hd : p.Nodup)
    (hb : ∀ x ∈ p, x < n) : p.length ≤ n := by
  have h1 : p.length = p.toFinset.card := (List.toFinset_card_of_nodup hd).symm
  have h2 : p.toFinset ⊆ Finset.range n := by
    intro x hx
    simp only [List.mem_toFinset] at hx
    simpa using hb x hx
  calc p.length = p.toFinset.card := h1
    _ ≤ (Finset.range n).card := Finset.card_le_card h2
    _ = n := Finset.card_range n

theorem isPathB_iff {n : Nat} {E : List PEdge} {a b : Nat} {p : List Nat} :
    isPathB n E a b p = true ↔ IsSP n E a b p := by
  simp only [isPathB, IsSP, chainB, Bool.and_eq_true, beq_iff_eq,
    decide_eq_true_eq, List.all_eq_true]
  tauto

theorem mem_simplePathsE {n : Nat} {E : List PEdge} {a b : Nat} {p : List Nat} :
    p ∈ simplePathsE n E a b ↔ IsSP n E a b p := by
  simp only [simplePathsE, List.mem_filter, isPathB_iff]
  constructor
  · rintro ⟨-, h⟩
    exact h
  · intro h
    obtain ⟨h1, h2, h3, hb, hd, hc⟩ := h
    exact ⟨mem_listsLE hb (nodup_bound_length hd hb), h1, h2, h3, hb, hd, hc⟩

/-!  List access helpers. -/

theorem getD_map {α β : Type} {l : List α} {f : α → β} {k : Nat} (d : α) (d2 : β)
    (h : k < l.length) : (l.map f).getD k d2 = f (l.getD k d) := by
  induction l generalizing k with
  | nil => simp at h
  | cons x xs ih =>
    cases k with
    | zero => simp
    | succ k =>
      simp only [List.map_cons, List.getD_cons_succ]
      exact ih (by simpa using h)

theorem getD_len_le {α : Type} {l : List α} {k : Nat} {d : α}
    (h : l.length ≤ k) : l.getD k d = d := by
  induction l generalizing k with
  | nil => simp
  | cons x xs ih =>
    cases k with
    | zero => simp at h
    | succ k =>
      simp only [List.getD_cons_succ]
      exact ih (by simpa using h)

theorem getD_range {n i : Nat} {d : Nat} (h : i < n) :
    (List.range n).getD i d = i := by
  induction n generalizing i d with
  | zero => omega
  | succ n ih =>
    rcases Nat.lt_succ_iff_lt_or_eq.mp h with h2 | rfl
    · rw [List.range_succ, List.getD_append _ _ _ _ (by simpa using h2)]
      exact ih h2
    · rw [List.range_succ, List.getD_append_right _ _ _ _ (by simp)]
      simp

theorem getD_rangeMap {β : Type} {n i : Nat} (f : Nat → β) (d : β) (h : i < n) :
    ((List.range n).map f).getD i d = f i := by
  rw [getD_map 0 d (by simpa using h), getD_range h]

/-!  Structure of the three passes. -/

theorem setFB_edges (g : PertGraph) (s : Nat) : (setFB g s).edges = g.edges := rfl

theorem setLF_edges (g : PertGraph) (e : Nat) : (setLF g e).edges = g.edges := rfl

theorem setFB_len (g : PertGraph) (s : Nat) :
    (setFB g s).nodes.length = g.nodes.length := by
  simp [setFB]

theorem setLF_len (g : PertGraph) (e : Nat) :
    (setLF g e).nodes.length = g.nodes.length := by
  simp [setLF]

theorem setFloats_nodes (g : PertGraph) : (setFloats g).nodes = g.nodes := rfl

theorem nodeFB_setFB (g : PertGraph) (s i : Nat) (h : i < g.nodes.length) :
    nodeFB (setFB g s) i = compute_fastest_begin g s i := by
  unfold nodeFB setFB
  simp only
  rw [getD_rangeMap _ _ h]

theorem nodeLF_setFB (g : PertGraph) (s i : Nat) :
    nodeLF (setFB g s) i = nodeLF g i := by
  unfold nodeLF setFB
  by_cases h : i < g.nodes.length
  · rw [getD_rangeMap _ _ h]
  · rw [getD_len_le (by simpa using Nat.le_of_not_lt h),
      getD_len_le (Nat.le_of_not_lt h)]

theorem nodeFB_setLF (g : PertGraph) (e i : Nat) :
    nodeFB (setLF g e) i = nodeFB g i := by
  unfold nodeFB setLF
  by_cases h : i < g.nodes.length
  · rw [getD_rangeMap _ _ h]
  · rw [getD_len_le (by simpa using Nat.le_of_not_lt h),
      getD_len_le (Nat.le_of_not_lt h)]

theorem nodeLF_setLF (g : PertGraph) (e i : Nat) (h : i < g.nodes.length) :
    nodeLF (setLF g e) i = compute_latest_finish g i e := by
  unfold nodeLF setLF
  simp only
  rw [getD_rangeMap _ _ h]

theorem nodeFB_setFloats (g : PertGraph) (i : Nat) :
    nodeFB (setFloats g) i = nodeFB g i := rfl

theorem nodeLF_setFloats (g : PertGraph) (i : Nat) :
    nodeLF (setFloats g) i = nodeLF g i := rfl

theorem pertNew_ok_iff {g g' : PertGraph} :
    Pert.new g = .ok g' ↔
      ∃ s e, start_node g = .ok s ∧ end_node (setFB g s) = .ok e ∧
        g' = setFloats (setLF (setFB g s) e) := by
  constructor
  · intro h
    unfold Pert.new at h
    cases hs : start_node g with
    | error m => rw [hs] at h; cases h
    | ok s =>
      rw [hs] at h
      simp only at h
      cases he : end_node (setFB g s) with
      | error m => rw [he] at h; cases h
      | ok e =>
        rw [he] at h
        simp only [Except.ok.injEq] at h
        exact ⟨s, e, rfl, he, h.symm⟩
  · rintro ⟨s, e, hs, he, rfl⟩
    unfold Pert.new
    rw [hs]
    simp only
    rw [he]

/-!  Topology validator characterization (claim C5). -/

theorem noInEdgeB_iff {E : List PEdge} {i : Nat} :
    noInEdgeB E i = true ↔ InDeg0 E i := by
  simp [noInEdgeB, InDeg0, List.all_eq_true]

theorem noOutEdgeB_iff {E : List PEdge} {i : Nat} :
    noOutEdgeB E i = true ↔ OutDeg0 E i := by
  simp [noOutEdgeB, OutDeg0, List.all_eq_true]

theorem mem_inDeg0List {n : Nat} {E : List PEdge} {i : Nat} :
    i ∈ inDeg0List n E ↔ i < n ∧ InDeg0 E i := by
  simp [inDeg0List, List.mem_filter, noInEdgeB_iff]

theorem mem_outDeg0List {n : Nat} {E : List PEdge} {i : Nat} :
    i ∈ outDeg0List n E ↔ i < n ∧ OutDeg0 E i := by
  simp [outDeg0List, List.mem_filter, noOutEdgeB_iff]

theorem nodup_eq_singleton {l : List Nat} {a : Nat} (hd : l.Nodup) (ha : a ∈ l)
    (hu : ∀ b ∈ l, b = a) : l = [a] := by
  cases l with
  | nil => simp at ha
  | cons x xs =>
    have hx : x = a := hu x (by simp)
    subst hx
    cases xs with
    | nil => rfl
    | cons y ys =>
      have hy : y = x := hu y (by simp)
      subst hy
      simp at hd

theorem inDeg0List_nodup {n : Nat} {E : List PEdge} : (inDeg0List n E).Nodup :=
  (List.nodup_range n).filter _

theorem outDeg0List_nodup {n : Nat} {E : List PEdge} : (outDeg0List n E).Nodup :=
  (List.nodup_range n).filter _

theorem inDeg0List_singleton {n : Nat} {E : List PEdge} {s : Nat}
    (h1 : s < n) (h2 : InDeg0 E s) (h3 : ∀ j, j < n → InDeg0 E j → j = s) :
    inDeg0List n E = [s] := by
  apply nodup_eq_singleton inDeg0List_nodup (mem_inDeg0List.mpr ⟨h1, h2⟩)
  intro b hb
  obtain ⟨hb1, hb2⟩ := mem_inDeg0List.mp hb
  exact h3 b hb1 hb2

theorem outDeg0List_singleton {n : Nat} {E : List PEdge} {s : Nat}
    (h1 : s < n) (h2 : OutDeg0 E s) (h3 : ∀ j, j < n → OutDeg0 E j → j = s) :
    outDeg0List n E = [s] := by
  apply nodup_eq_singleton outDeg0List_nodup (mem_outDeg0List.mpr ⟨h1, h2⟩)
  intro b hb
  obtain ⟨hb1, hb2⟩ := mem_outDeg0List.mp hb
  exact h3 b hb1 hb2

theorem start_node_ok_iff {g : PertGraph} {i : Nat} :
    start_node g = .ok i ↔
      i < g.nodes.length ∧ InDeg0 g.edges i ∧
        ∀ j, j < g.nodes.length → InDeg0 g.edges j → j = i := by
  unfold start_node
  cases hl : inDeg0List g.nodes.length g.edges with
  | nil =>
    simp only
    constructor
    · intro h
      cases h
    · rintro ⟨h1, h2, -⟩
      have hm : i ∈ inDeg0List g.nodes.length g.edges := mem_inDeg0List.mpr ⟨h1, h2⟩
      rw [hl] at hm
      simp at hm
  | cons a t =>
    cases t with
    | nil =>
      simp only [Except.ok.injEq]
      have ha : a ∈ inDeg0List g.nodes.length g.edges := by
        rw [hl]
        simp
      obtain ⟨ha1, ha2⟩ := mem_inDeg0List.mp ha
      constructor
      · rintro rfl
        refine ⟨ha1, ha2, fun j hj1 hj2 => ?_⟩
        have hm : j ∈ inDeg0List g.nodes.length g.edges := mem_inDeg0List.mpr ⟨hj1, hj2⟩
        rw [hl] at hm
        simpa using hm
      · rintro ⟨h1, h2, h3⟩
        exact h3 a ha1 ha2
    | cons b t2 =>
      simp only
      constructor
      · intro h
        cases h
      · rintro ⟨h1, h2, h3⟩
        have ha : a ∈ inDeg0List g.nodes.length g.edges := by
          rw [hl]; simp
        have hb : b ∈ inDeg0List g.nodes.length g.edges := by
          rw [hl]; simp
        obtain ⟨ha1, ha2⟩ := mem_inDeg0List.mp ha
        obtain ⟨hb1, hb2⟩ := mem_inDeg0List.mp hb
        have hnd := inDeg0List_nodup (n := g.nodes.length) (E := g.edges)
        rw [hl] at hnd
        have hab : a ≠ b := by
          intro h
          subst h
          simp at hnd
        exact absurd ((h3 a ha1 ha2).trans (h3 b hb1 hb2).symm) hab

theorem end_node_ok_iff {g : PertGraph} {i : Nat} :
    end_node g = .ok i ↔
      i < g.nodes.length ∧ OutDeg0 g.edges i ∧
        ∀ j, j < g.nodes.length → OutDeg0 g.edges j → j = i := by
  unfold end_node
  cases hl : outDeg0List g.nodes.length g.edges with
  | nil =>
    simp only
    constructor
    · intro h
      cases h
    · rintro ⟨h1, h2, -⟩
      have hm : i ∈ outDeg0List g.nodes.length g.edges := mem_outDeg0List.mpr ⟨h1, h2⟩
      rw [hl] at hm
      simp at hm
  | cons a t =>
    cases t with
    | nil =>
      simp only [Except.ok.injEq]
      have ha : a ∈ outDeg0List g.nodes.length g.edges := by
        rw [hl]
        simp
      obtain ⟨ha1, ha2⟩ := mem_outDeg0List.mp ha
      constructor
      · rintro rfl
        refine ⟨ha1, ha2, fun j hj1 hj2 => ?_⟩
        have hm : j ∈ outDeg0List g.nodes.length g.edges := mem_outDeg0List.mpr ⟨hj1, hj2⟩
        rw [hl] at hm
        simpa using hm
      · rintro ⟨h1, h2, h3⟩
        exact h3 a ha1 ha2
    | cons b t2 =>
      simp only
      constructor
      · intro h
        cases h
      · rintro ⟨h1, h2, h3⟩
        have ha : a ∈ outDeg0List g.nodes.length g.edges := by
          rw [hl]; simp
        have hb : b ∈ outDeg0List g.nodes.length g.edges := by
          rw [hl]; simp
        obtain ⟨ha1, ha2⟩ := mem_outDeg0List.mp ha
        obtain ⟨hb1, hb2⟩ := mem_outDeg0List.mp hb
        have hnd := outDeg0List_nodup (n := g.nodes.length) (E := g.edges)
        rw [hl] at hnd
        have hab : a ≠ b := by
          intro h
          subst h
          simp at hnd
        exact absurd ((h3 a ha1 ha2).trans (h3 b hb1 hb2).symm) hab

theorem start_node_noexist_iff {g : PertGraph} :
    start_node g = .error "Start node is not exist" ↔
      ∀ i, i < g.nodes.length → ¬ InDeg0 g.edges i := by
  unfold start_node
  cases hl : inDeg0List g.nodes.length g.edges with
  | nil =>
    simp only [true_iff, iff_true]
    intro i h1 h2
    have hm : i ∈ inDeg0List g.nodes.length g.edges := mem_inDeg0List.mpr ⟨h1, h2⟩
    rw [hl] at hm
    simp at hm
  | cons a t =>
    have ha : a ∈ inDeg0List g.nodes.length g.edges := by
      rw [hl]; simp
    obtain ⟨ha1, ha2⟩ := mem_inDeg0List.mp ha
    cases t with
    | nil =>
      simp only
      constructor
      · intro h
        cases h
      · intro h
        exact absurd ha2 (h a ha1)
    | cons b t2 =>
      simp only [Except.error.injEq]
      constructor
      · intro h
        exact absurd h (by decide)
      · intro h
        exact absurd ha2 (h a ha1)

theorem end_node_noexist_iff {g : PertGraph} :
    end_node g = .error "End node is not exist" ↔
      ∀ i, i < g.nodes.length → ¬ OutDeg0 g.edges i := by
  unfold end_node
  cases hl : outDeg0List g.nodes.length g.edges with
  | nil =>
    simp only [true_iff, iff_true]
    intro i h1 h2
    have hm : i ∈ outDeg0List g.nodes.length g.edges := mem_outDeg0List.mpr ⟨h1, h2⟩
    rw [hl] at hm
    simp at hm
  | cons a t =>
    have ha : a ∈ outDeg0List g.nodes.length g.edges := by
      rw [hl]; simp
    obtain ⟨ha1, ha2⟩ := mem_outDeg0List.mp ha
    cases t with
    | nil =>
      simp only
      constructor
      · intro h
        cases h
      · intro h
        exact absurd ha2 (h a ha1)
    | cons b t2 =>
      simp only [Except.error.injEq]
      constructor
      · intro h
        exact absurd h (by decide)
      · intro h
        exact absurd ha2 (h a ha1)

theorem start_node_dup_iff {g : PertGraph} :
    start_node g = .error "Start node is duplicated" ↔
      ∃ i j, i < g.nodes.length ∧ j < g.nodes.length ∧ i ≠ j ∧
        InDeg0 g.edges i ∧ InDeg0 g.edges j := by
  unfold start_node
  cases hl : inDeg0List g.nodes.length g.edges with
  | nil =>
    simp only [Except.error.injEq]
    constructor
    · intro h
      exact absurd h (by decide)
    · rintro ⟨i, j, h1, h2, h3, h4, h5⟩
      have hm : i ∈ inDeg0List g.nodes.length g.edges := mem_inDeg0List.mpr ⟨h1, h4⟩
      rw [hl] at hm
      simp at hm
  | cons a t =>
    cases t with
    | nil =>
      simp only
      constructor
      · intro h
        cases h
      · rintro ⟨i, j, h1, h2, h3, h4, h5⟩
        have hmi : i ∈ inDeg0List g.nodes.length g.edges := mem_inDeg0List.mpr ⟨h1, h4⟩
        have hmj : j ∈ inDeg0List g.nodes.length g.edges := mem_inDeg0List.mpr ⟨h2, h5⟩
        rw [hl] at hmi hmj
        simp at hmi hmj
        exact absurd (hmi.trans hmj.symm) h3
    | cons b t2 =>
      simp only [true_iff, iff_true]
      have ha : a ∈ inDeg0List g.nodes.length g.edges := by
        rw [hl]; simp
      have hb : b ∈ inDeg0List g.nodes.length g.edges := by
        rw [hl]; simp
      obtain ⟨ha1, ha2⟩ := mem_inDeg0List.mp ha
      obtain ⟨hb1, hb2⟩ := mem_inDeg0List.mp hb
      have hnd := inDeg0List_nodup (n := g.nodes.length) (E := g.edges)
      rw [hl] at hnd
      have hab : a ≠ b := by
        intro h
        subst h
        simp at hnd
      exact ⟨a, b, ha1, hb1, hab, ha2, hb2⟩

theorem end_node_dup_iff {g : PertGraph} :
    end_node g = .error "End node is duplicated" ↔
      ∃ i j, i < g.nodes.length ∧ j < g.nodes.length ∧ i ≠ j ∧
        OutDeg0 g.edges i ∧ OutDeg0 g.edges j := by
  unfold end_node
  cases hl : outDeg0List g.nodes.length g.edges with
  | nil =>
    simp only [Except.error.injEq]
    constructor
    · intro h
      exact absurd h (by decide)
    · rintro ⟨i, j, h1, h2, h3, h4, h5⟩
      have hm : i ∈ outDeg0List g.nodes.length g.edges := mem_outDeg0List.mpr ⟨h1, h4⟩
      rw [hl] at hm
      simp at hm
  | cons a t =>
    cases t with
    | nil =>
      simp only
      constructor
      · intro h
        cases h
      · rintro ⟨i, j, h1, h2, h3, h4, h5⟩
        have hmi : i ∈ outDeg0List g.nodes.length g.edges := mem_outDeg0List.mpr ⟨h1, h4⟩
        have hmj : j ∈ outDeg0List g.nodes.length g.edges := mem_outDeg0List.mpr ⟨h2, h5⟩
        rw [hl] at hmi hmj
        simp at hmi hmj
        exact absurd (hmi.trans hmj.symm) h3
    | cons b t2 =>
      simp only [true_iff, iff_true]
      have ha : a ∈ outDeg0List g.nodes.length g.edges := by
        rw [hl]; simp
      have hb : b ∈ outDeg0List g.nodes.length g.edges := by
        rw [hl]; simp
      obtain ⟨ha1, ha2⟩ := mem_outDeg0List.mp ha
      obtain ⟨hb1, hb2⟩ := mem_outDeg0List.mp hb
      have hnd := outDeg0List_nodup (n := g.nodes.length) (E := g.edges)
      rw [hl] at hnd
      have hab : a ≠ b := by
        intro h
        subst h
        simp at hnd
      exact ⟨a, b, ha1, hb1, hab, ha2, hb2⟩

/-- C5: `start_node` returns the unique in-degree-0 node index, failing
with the no-start-node error when none exists and the duplicate-start-node
error when more than one exists; `end_node` behaves symmetrically on
out-degree-0 nodes with the no-end-node and duplicate-end-node errors.
Both are pure queries over the edge structure: in this embedding they
return a value and the graph is never modified. -/
theorem claimC5 (g : PertGraph) :
    (∀ i, start_node g = .ok i ↔
      i < g.nodes.length ∧ InDeg0 g.edges i ∧
        ∀ j, j < g.nodes.length → InDeg0 g.edges j → j = i) ∧
    (start_node g = .error "Start node is not exist" ↔
      ∀ i, i < g.nodes.length → ¬ InDeg0 g.edges i) ∧
    (start_node g = .error "Start node is duplicated" ↔
      ∃ i j, i < g.nodes.length ∧ j < g.nodes.length ∧ i ≠ j ∧
        InDeg0 g.edges i ∧ InDeg0 g.edges j) ∧
    (∀ i, end_node g = .ok i ↔
      i < g.nodes.length ∧ OutDeg0 g.edges i ∧
        ∀ j, j < g.nodes.length → OutDeg0 g.edges j → j = i) ∧
    (end_node g = .error "End node is not exist" ↔
      ∀ i, i < g.nodes.length → ¬ OutDeg0 g.edges i) ∧
    (end_node g = .error "End node is duplicated" ↔
      ∃ i j, i < g.nodes.length ∧ j < g.nodes.length ∧ i ≠ j ∧
        OutDeg0 g.edges i ∧ OutDeg0 g.edges j) :=
  ⟨fun _ => start_node_ok_iff, start_node_noexist_iff, start_node_dup_iff,
    fun _ => end_node_ok_iff, end_node_noexist_iff, end_node_dup_iff⟩

/-- Shared fact behind C3, C4 and C7: each finished edge carries exactly
the floats of the compute_floats formulas evaluated on the finished node
times. -/
theorem float_fields (g g' : PertGraph) (h : Pert.new g = .ok g') :
    ∀ k, k < g'.edges.length →
      (g'.edges.getD k dE).task.total_float =
        wsub (nodeLF g' (g'.edges.getD k dE).target)
          ((nodeFB g' (g'.edges.getD k dE).source +
            (g'.edges.getD k dE).task.duration) % W) ∧
      (g'.edges.getD k dE).task.free_float =
        wsub (nodeFB g' (g'.edges.getD k dE).target)
          ((nodeFB g' (g'.edges.getD k dE).source +
            (g'.edges.getD k dE).task.duration) % W) := by
  obtain ⟨s, e, hs, he, rfl⟩ := pertNew_ok_iff.mp h
  intro k hk
  have hlen : k < (setLF (setFB g s) e).edges.length := by
    simpa [setFloats] using hk
  have hed : (setFloats (setLF (setFB g s) e)).edges.getD k dE =
      (fun e0 => { e0 with task :=
        { e0.task with
            total_float := (compute_floats (setLF (setFB g s) e) e0).total_float,
            free_float := (compute_floats (setLF (setFB g s) e) e0).free_float } })
      ((setLF (setFB g s) e).edges.getD k dE) := by
    simp only [setFloats]
    exact getD_map dE dE hlen
  rw [hed]
  constructor
  · simp [compute_floats, nodeFB_setFloats, nodeLF_setFloats]
  · simp [compute_floats, nodeFB_setFloats, nodeLF_setFloats]

/-- C3: on every network Pert::new accepts, each finished edge carries
exactly the floats of the source formulas, computed from the node times set
by the two propagation passes (the very node times stored in the finished
graph): totalFloat = latestFinish[target] - (fastestBegin[source] + duration)
and freeFloat = fastestBegin[target] - (fastestBegin[source] + duration),
in u32 arithmetic. -/
theorem claimC3 (g g' : PertGraph) (h : Pert.new g = .ok g') :
    ∀ k, k < g'.edges.length →
      (g'.edges.getD k dE).task.total_float =
        wsub (nodeLF g' (g'.edges.getD k dE).target)
          ((nodeFB g' (g'.edges.getD k dE).source +
            (g'.edges.getD k dE).task.duration) % W) ∧
      (g'.edges.getD k dE).task.free_float =
        wsub (nodeFB g' (g'.edges.getD k dE).target)
          ((nodeFB g' (g'.edges.getD k dE).source +
            (g'.edges.getD k dE).task.duration) % W) :=
  float_fields g g' h

/-- Witness for C3 at the diamond network of spec Scenario 2, edge 0. -/
theorem claimC3_witness :
    ((pertOut wG).edges.getD 0 dE).task.total_float =
      wsub (nodeLF (pertOut wG) ((pertOut wG).edges.getD 0 dE).target)
        ((nodeFB (pertOut wG) ((pertOut wG).edges.getD 0 dE).source +
          ((pertOut wG).edges.getD 0 dE).task.duration) % W) :=
  (claimC3 wG (pertOut wG) (by decide) 0 (by decide)).1

/-!  Escaper lemmas (claim C9). -/

theorem escapeChar_no_newline (c : Char) : '\n' ∉ escapeChar c := by
  unfold escapeChar
  split_ifs with h1 h2
  · simp only [Bool.or_eq_true, decide_eq_true_eq] at h1
    rcases h1 with rfl | rfl
    · decide
    · decide
  · decide
  · simp only [Bool.or_eq_true, decide_eq_true_eq, not_or] at h1
    simp only [decide_eq_true_eq] at h2
    simp only [List.mem_singleton]
    intro h
    exact h2 h.symm

theorem escapeList_no_newline (l : List Char) : '\n' ∉ escapeList l := by
  induction l with
  | nil => simp [escapeList]
  | cons c t ih =>
    simp only [escapeList, List.flatMap_cons, List.mem_append]
    rintro (h | h)
    · exact escapeChar_no_newline c h
    · exact ih h

theorem escapeList_append (l1 l2 : List Char) :
    escapeList (l1 ++ l2) = escapeList l1 ++ escapeList l2 := by
  simp [escapeList]

theorem escapeList_quote (l1 l2 : List Char) :
    escapeList (l1 ++ '"' :: l2) = escapeList l1 ++ '\\' :: '"' :: escapeList l2 := by
  rw [escapeList_append]
  simp [escapeList, escapeChar]

theorem escapeList_backslash (l1 l2 : List Char) :
    escapeList (l1 ++ '\\' :: l2) =
      escapeList l1 ++ '\\' :: '\\' :: escapeList l2 := by
  rw [escapeList_append]
  simp [escapeList, escapeChar]

theorem escapeList_newline (l1 l2 : List Char) :
    escapeList (l1 ++ '\n' :: l2) =
      escapeList l1 ++ '\\' :: 'l' :: escapeList l2 := by
  rw [escapeList_append]
  simp [escapeList, escapeChar]

theorem unescape_escape (l : List Char) : unescapeList (escapeList l) = l := by
  induction l with
  | nil => rfl
  | cons c t ih =>
    show unescapeList (escapeChar c ++ escapeList t) = c :: t
    unfold escapeChar
    split_ifs with h1 h2
    · simp only [Bool.or_eq_true, decide_eq_true_eq] at h1
      rcases h1 with rfl | rfl
      · simp [unescapeList, ih]
      · simp [unescapeList, ih]
    · simp only [decide_eq_true_eq] at h2
      subst h2
      simp [unescapeList, ih]
    · simp only [Bool.or_eq_true, decide_eq_true_eq, not_or] at h1
      simp only [List.singleton_append]
      rw [unescapeList.eq_def]
      simp [h1.2, ih]

/-- C9: label text is streamed through the Escaper, so in every node and
edge label the renderer emits (they are `escapeString` of the display
text by definition of `nodeStmt`/`edgeStmt`): every literal double quote
and backslash of the underlying text comes out backslash-escaped, every
embedded line break comes out as the two characters `\l`, no raw newline
survives, and the original text is recoverable (the escaping loses
nothing). -/
theorem claimC9 :
    (∀ s : String, escapeString s = ⟨escapeList s.data⟩) ∧
    (∀ l : List Char, '\n' ∉ escapeList l) ∧
    (∀ l1 l2 : List Char,
      escapeList (l1 ++ '"' :: l2) = escapeList l1 ++ '\\' :: '"' :: escapeList l2) ∧
    (∀ l1 l2 : List Char,
      escapeList (l1 ++ '\\' :: l2) = escapeList l1 ++ '\\' :: '\\' :: escapeList l2) ∧
    (∀ l1 l2 : List Char,
      escapeList (l1 ++ '\n' :: l2) = escapeList l1 ++ '\\' :: 'l' :: escapeList l2) ∧
    (∀ l : List Char, unescapeList (escapeList l) = l) :=
  ⟨fun _ => rfl, escapeList_no_newline, escapeList_quote, escapeList_backslash,
    escapeList_newline, unescape_escape⟩

/-!  Edge styles (claim C8). -/

/-- C8 counterexample: the zero-duration task of `cxG8` ends with
total_float = 0, so it is simultaneously a dummy path and a critical path,
yet its rendered edge statement carries only the dashed style and no bold
style — refuting "every edge whose task satisfies isCriticalPath carries a
bold style, including edges for which both predicates hold". -/
theorem claimC8_counterexample :
    Pert.new cxG8 = .ok (pertOut cxG8) ∧
    ((pertOut cxG8).edges.getD 0 dE).task.is_dummy_path = true ∧
    ((pertOut cxG8).edges.getD 0 dE).task.is_critical_path = true ∧
    styleSuffix ((pertOut cxG8).edges.getD 0 dE).task = ", style=dashed" ∧
    ¬ ("style=bold".data <:+: (edgeStmt ((pertOut cxG8).edges.getD 0 dE)).data) ∧
    ("style=dashed".data <:+: (edgeStmt ((pertOut cxG8).edges.getD 0 dE)).data) := by
  refine ⟨by decide, by decide, by decide, by decide, by decide, by decide⟩

/-- C8 (amended): in the rendered description, every dummy-path edge
(duration 0) carries the dashed style; every critical-path edge
(totalFloat 0) that is *not* also a dummy path carries the bold style; an
edge satisfying both predicates carries only the dashed style, because the
dummy arm of the renderer's match shadows the critical arm. -/
theorem claimC8_amended (e : PEdge) :
    (e.task.is_dummy_path = true →
      styleSuffix e.task = ", style=dashed" ∧
      (", style=dashed").data <:+: (edgeStmt e).data) ∧
    (e.task.is_dummy_path = false → e.task.is_critical_path = true →
      styleSuffix e.task = ", style=bold" ∧
      (", style=bold").data <:+: (edgeStmt e).data) ∧
    (e.task.is_dummy_path = false → e.task.is_critical_path = false →
      styleSuffix e.task = "") := by
  refine ⟨?_, ?_, ?_⟩
  · intro h
    have hs : styleSuffix e.task = ", style=dashed" := by
      simp [styleSuffix, h]
    refine ⟨hs, ?_⟩
    unfold edgeStmt
    rw [hs]
    refine ⟨("    " ++ toString e.source ++ " -> " ++ toString e.target ++
      " [label=\"" ++ escapeString (displayTask e.task) ++ "\"").data, ("]\n").data, ?_⟩
    simp [String.data_append]
  · intro h1 h2
    have hs : styleSuffix e.task = ", style=bold" := by
      simp [styleSuffix, h1, h2]
    refine ⟨hs, ?_⟩
    unfold edgeStmt
    rw [hs]
    refine ⟨("    " ++ toString e.source ++ " -> " ++ toString e.target ++
      " [label=\"" ++ escapeString (displayTask e.task) ++ "\"").data, ("]\n").data, ?_⟩
    simp [String.data_append]
  · intro h1 h2
    simp [styleSuffix, h1, h2]

/-- Witness for C8 (amended) at the pipeline output of `cxG8`. -/
theorem claimC8_amended_witness :
    styleSuffix ((pertOut cxG8).edges.getD 0 dE).task = ", style=dashed" ∧
    (", style=dashed").data <:+:
      (edgeStmt ((pertOut cxG8).edges.getD 0 dE)).data :=
  (claimC8_amended ((pertOut cxG8).edges.getD 0 dE)).1 (by decide)

/-!  Acyclicity via the bounded check. -/

theorem acyclicB_sound {n : Nat} {E : List PEdge} (h : acyclicB n E = true) :
    AcyclicE n E := by
  intro p
  cases hb : isCycleB n E p with
  | false => rfl
  | true =>
    exfalso
    have hparts := hb
    unfold isCycleB at hparts
    simp only [Bool.and_eq_true, List.all_eq_true, decide_eq_true_eq] at hparts
    obtain ⟨⟨⟨⟨he, hall⟩, hnodup⟩, hchain⟩, hmatch⟩ := hparts
    have hmem : p ∈ pathCands n :=
      mem_listsLE hall (nodup_bound_length hnodup hall)
    have hall2 : ∀ x ∈ pathCands n, isCycleB n E x = false := by
      simpa [acyclicB] using h
    have hfalse := hall2 p hmem
    rw [hb] at hfalse
    cases hfalse

/-!  Counterexamples: parallel edges of unequal duration. -/

/-- C1 counterexample: `cxG1` is accepted by the pipeline (start node 0,
end node 1), but the computed fastest_begin of node 1 is 1, while the
maximum duration sum over all simple paths from the start (spec reading,
edge paths) is 5 — `find_edge` only ever sees the last-inserted parallel
edge. -/
theorem claimC1_counterexample :
    Pert.new cxG1 = .ok (pertOut cxG1) ∧
    start_node cxG1 = .ok 0 ∧
    nodeFB (pertOut cxG1) 1 = 1 ∧
    specFastestBegin 2 cxG1.edges 0 1 = 5 ∧
    (1 : Nat) ≠ 5 :=
  ⟨by decide, by decide, by decide, by decide, by decide⟩

/-- C2 counterexample: in the accepted network `cxG2` (start 0, end 2,
project duration T = 10), the computed latest_finish of node 1 is 9, while
the minimum of T minus the duration sum over all simple paths from node 1
to the end (spec reading, edge paths) is 10 − 5 = 5. -/
theorem claimC2_counterexample :
    Pert.new cxG2 = .ok (pertOut cxG2) ∧
    start_node cxG2 = .ok 0 ∧
    end_node (pertOut cxG2) = .ok 2 ∧
    nodeFB (pertOut cxG2) 2 = 10 ∧
    nodeLF (pertOut cxG2) 1 = 9 ∧
    specLatestFinish 3 cxG2.edges (nodeFB (pertOut cxG2) 2) 1 2 = 5 ∧
    (9 : Nat) ≠ 5 :=
  ⟨by decide, by decide, by decide, by decide, by decide, by decide, by decide⟩

/-- C4 counterexample: `cxG1` is acyclic with exactly one start and one end
node and is built from input rows, yet for its first edge (duration 5) the
subtrahend fastestBegin[source] + duration = 5 exceeds both
latestFinish[target] = 1 and fastestBegin[target] = 1: both unsigned
subtractions of the float computation underflow, and the stored total
float is the wrapped value 2^32 − 4. -/
theorem claimC4_counterexample :
    Pert.new cxG1 = .ok (pertOut cxG1) ∧
    AcyclicE 2 cxG1.edges ∧
    nodeFB (pertOut cxG1) (cxG1.edges.getD 0 dE).source +
      (cxG1.edges.getD 0 dE).task.duration = 5 ∧
    nodeLF (pertOut cxG1) (cxG1.edges.getD 0 dE).target = 1 ∧
    nodeFB (pertOut cxG1) (cxG1.edges.getD 0 dE).target = 1 ∧
    ¬ (5 : Nat) ≤ 1 ∧
    ((pertOut cxG1).edges.getD 0 dE).task.total_float = 4294967292 :=
  ⟨by decide, acyclicB_sound (by decide), by decide, by decide, by decide,
    by decide, by decide⟩

set_option maxRecDepth 4000 in
/-- C6 counterexample: for the accepted acyclic network `cxG1` the end node
satisfies fastestBegin = latestFinish = 1, but the longest start-to-end
path (spec reading, edge paths) has length 5, so the common value is not
the longest-path length. -/
theorem claimC6_counterexample :
    Pert.new cxG1 = .ok (pertOut cxG1) ∧
    AcyclicE 2 cxG1.edges ∧
    start_node cxG1 = .ok 0 ∧
    end_node (pertOut cxG1) = .ok 1 ∧
    nodeFB (pertOut cxG1) 1 = 1 ∧
    nodeLF (pertOut cxG1) 1 = 1 ∧
    specFastestBegin 2 cxG1.edges 0 1 = 5 ∧
    (1 : Nat) ≠ 5 :=
  ⟨by decide, acyclicB_sound (by decide), by decide, by decide, by decide,
    by decide, by decide, by decide⟩

set_option maxRecDepth 8000 in
/-- C7 counterexample: in the accepted acyclic network `cxG7`, the first
edge (the duration-5 parallel task) ends with free_float = 2^32 − 4 (its
unsigned subtraction wrapped) and total_float = 13, so freeFloat ≤
totalFloat fails. -/
theorem claimC7_counterexample :
    Pert.new cxG7 = .ok (pertOut cxG7) ∧
    AcyclicE 4 cxG7.edges ∧
    ((pertOut cxG7).edges.getD 0 dE).task.free_float = 4294967292 ∧
    ((pertOut cxG7).edges.getD 0 dE).task.total_float = 13 ∧
    ¬ ((pertOut cxG7).edges.getD 0 dE).task.free_float ≤
        ((pertOut cxG7).edges.getD 0 dE).task.total_float :=
  ⟨by decide, acyclicB_sound (by decide), by decide, by decide, by decide⟩

/-!  Pairs of consecutive elements. -/

theorem pairsOf_cons_cons {α : Type} (x y : α) (r : List α) :
    pairsOf (x :: y :: r) = (x, y) :: pairsOf (y :: r) := rfl

theorem pairsOf_single {α : Type} (x : α) : pairsOf [x] = ([] : List (α × α)) := rfl

theorem pairsOf_length {α : Type} (p : List α) : (pairsOf p).length = p.length - 1 := by
  cases p with
  | nil => rfl
  | cons x t =>
    simp [pairsOf]

theorem pairsOf_ne_nil {α : Type} {p : List α} (h : 2 ≤ p.length) : pairsOf p ≠ [] := by
  intro hc
  have := pairsOf_length p
  rw [hc] at this
  simp at this
  omega

theorem pairsOf_map_fst {α : Type} (p : List α) :
    (pairsOf p).map Prod.fst = p.dropLast := by
  induction p with
  | nil => rfl
  | cons x t ih =>
    cases t with
    | nil => rfl
    | cons y r =>
      rw [pairsOf_cons_cons]
      simp only [List.map_cons]
      rw [ih]
      rfl

theorem pairsOf_getLast_snd {α : Type} {p : List α} (h : 2 ≤ p.length) :
    (pairsOf p).getLast?.map Prod.snd = p.getLast? := by
  induction p with
  | nil => simp at h
  | cons x t ih =>
    cases t with
    | nil => simp at h
    | cons y r =>
      rw [pairsOf_cons_cons]
      cases r with
      | nil => rfl
      | cons z r2 =>
        have h2 : 2 ≤ (y :: z :: r2).length := by simp
        rw [List.getLast?_cons_cons]
        rw [← ih h2]
        have hne : pairsOf (y :: z :: r2) ≠ [] := pairsOf_ne_nil h2
        cases hp : pairsOf (y :: z :: r2) with
        | nil => exact absurd hp hne
        | cons q qs => simp

theorem pairsOf_map {α β : Type} (f : α → β) (p : List α) :
    pairsOf (p.map f) = (pairsOf p).map fun uv => (f uv.1, f uv.2) := by
  unfold pairsOf
  rw [← List.map_tail, List.zip_map]
  rfl

theorem pairsOf_adj {α : Type} {p : List α} :
    ∀ r ∈ pairsOf (pairsOf p), r.1.2 = r.2.1 := by
  induction p with
  | nil => simp [pairsOf]
  | cons x t ih =>
    cases t with
    | nil => simp [pairsOf]
    | cons y r =>
      rw [pairsOf_cons_cons]
      cases r with
      | nil => simp [pairsOf]
      | cons z r2 =>
        rw [pairsOf_cons_cons, pairsOf_cons_cons]
        intro q hq
        rcases List.mem_cons.mp hq with rfl | hq2
        · rfl
        · exact ih q (by rw [pairsOf_cons_cons]; exact hq2)

/-!  Wrapping arithmetic equals exact arithmetic below the modulus. -/

theorem wrapFoldAdd_from (l : List Nat) :
    ∀ acc, acc + l.sum < W → l.foldl (fun a d => (a + d) % W) acc = acc + l.sum := by
  induction l with
  | nil =>
    intro acc h
    simp
  | cons d t ih =>
    intro acc h
    simp only [List.sum_cons] at h
    have hd : acc + d < W := by omega
    simp only [List.foldl_cons]
    rw [Nat.mod_eq_of_lt hd]
    rw [ih (acc + d) (by omega)]
    simp only [List.sum_cons]
    omega

theorem wrapFoldAdd_eq_sum {l : List Nat} (h : l.sum < W) :
    wrapFoldAdd l = l.sum := by
  unfold wrapFoldAdd
  rw [wrapFoldAdd_from l 0 (by omega)]
  omega

theorem wrapFoldSub_from (l : List Nat) :
    ∀ t, t < W → l.sum ≤ t → l.foldl (fun a d => wsub a d) t = t - l.sum := by
  induction l with
  | nil =>
    intro t h1 h2
    simp
  | cons d r ih =>
    intro t h1 h2
    simp only [List.sum_cons] at h2
    have hd : d ≤ t := by omega
    simp only [List.foldl_cons]
    have hw : wsub t d = t - d := by
      unfold wsub
      have : t + W - d = W + (t - d) := by omega
      rw [this, Nat.add_mod_left]
      exact Nat.mod_eq_of_lt (by omega)
    rw [hw, ih (t - d) (by omega) (by omega)]
    simp only [List.sum_cons]
    omega

theorem wrapFoldSub_eq_sub {t : Nat} {l : List Nat} (h1 : t < W)
    (h2 : l.sum ≤ t) : wrapFoldSub t l = t - l.sum := by
  unfold wrapFoldSub
  exact wrapFoldSub_from l t h1 h2

theorem wsub_eq_sub {a b : Nat} (h1 : a < W) (h2 : b ≤ a) : wsub a b = a - b := by
  unfold wsub
  have : a + W - b = W + (a - b) := by omega
  rw [this, Nat.add_mod_left]
  exact Nat.mod_eq_of_lt (by omega)

/-!  find_edge and duration bounds. -/

theorem mem_of_getLast?_eq {α : Type} {l : List α} {x : α}
    (h : l.getLast? = some x) : x ∈ l := by
  have hx : x ∈ l.getLast? := by
    rw [h]
    rfl
  obtain ⟨hne, hx2⟩ := List.mem_getLast?_eq_getLast hx
  rw [hx2]
  exact List.getLast_mem hne

theorem findEdgeE_spec {E : List PEdge} {u v : Nat} (h : hasEdgeE E u v = true) :
    ∃ k, findEdgeE E u v = some k ∧ k < E.length ∧
      (E.getD k dE).source = u ∧ (E.getD k dE).target = v := by
  unfold hasEdgeE at h
  simp only [List.any_eq_true, Bool.and_eq_true, beq_iff_eq] at h
  obtain ⟨e, he, h1, h2⟩ := h
  obtain ⟨i, hi, hie⟩ := List.getElem_of_mem he
  have hip : i ∈ (List.range E.length).filter fun k =>
      (E.getD k dE).source == u && (E.getD k dE).target == v := by
    rw [List.mem_filter]
    refine ⟨List.mem_range.mpr hi, ?_⟩
    have hgd : E.getD i dE = e := by
      rw [List.getD_eq_getElem _ _ hi]
      exact hie
    rw [hgd]
    simp [h1, h2]
  cases hl : ((List.range E.length).filter fun k =>
      (E.getD k dE).source == u && (E.getD k dE).target == v).getLast? with
  | none =>
    rw [List.getLast?_eq_none_iff] at hl
    rw [hl] at hip
    simp at hip
  | some k =>
    have hkmem : k ∈ (List.range E.length).filter fun k =>
        (E.getD k dE).source == u && (E.getD k dE).target == v :=
      mem_of_getLast?_eq hl
    simp only [List.mem_filter, List.mem_range, Bool.and_eq_true, beq_iff_eq] at hkmem
    exact ⟨k, hl, hkmem.1, hkmem.2.1, hkmem.2.2⟩

theorem stepDurE_le_totalDur (E : List PEdge) (u v : Nat) :
    stepDurE E u v ≤ totalDur E := by
  unfold stepDurE
  cases hf : findEdgeE E u v with
  | none => exact Nat.zero_le _
  | some k =>
    unfold findEdgeE at hf
    have hkmem : k ∈ (List.range E.length).filter fun j =>
        (E.getD j dE).source == u && (E.getD j dE).target == v :=
      mem_of_getLast?_eq hf
    simp only [List.mem_filter, List.mem_range] at hkmem
    have hmem : E.getD k dE ∈ E := by
      rw [List.getD_eq_getElem _ _ hkmem.1]
      exact List.getElem_mem hkmem.1
    unfold totalDur
    exact List.single_le_sum (fun x _ => Nat.zero_le x) _
      (List.mem_map_of_mem (fun e => e.task.duration) hmem)

theorem stepSumE_le {n : Nat} {E : List PEdge} {p : List Nat}
    (hlen : p.length ≤ n) : stepSumE E p ≤ n * totalDur E := by
  unfold stepSumE durListE
  calc ((pairsOf p).map fun uv => stepDurE E uv.1 uv.2).sum
      ≤ ((pairsOf p).map fun uv => stepDurE E uv.1 uv.2).length * totalDur E := by
        apply List.sum_le_card_nsmul
        intro x hx
        obtain ⟨uv, -, rfl⟩ := List.mem_map.mp hx
        exact stepDurE_le_totalDur E uv.1 uv.2
    _ ≤ n * totalDur E := by
        apply Nat.mul_le_mul_right
        rw [List.length_map, pairsOf_length]
        omega

/-!  Edge paths versus node paths. -/

theorem isEdgePathB_iff {n : Nat} {E : List PEdge} {a b : Nat} {ks : List Nat} :
    isEdgePathB n E a b ks = true ↔ IsEP n E a b ks := by
  simp only [isEdgePathB, IsEP, epChainB, Bool.and_eq_true, beq_iff_eq,
    decide_eq_true_eq, List.all_eq_true, Bool.not_eq_true',
    List.isEmpty_eq_false]
  tauto

theorem mem_edgePathsE {n : Nat} {E : List PEdge} {a b : Nat} {ks : List Nat} :
    ks ∈ edgePathsE n E a b ↔ IsEP n E a b ks := by
  simp only [edgePathsE, List.mem_filter, isEdgePathB_iff]
  constructor
  · rintro ⟨-, h⟩
    exact h
  · intro h
    refine ⟨?_, h⟩
    obtain ⟨hne, hk, hch, hhd, hlast, hnd, hb⟩ := h
    have hsn : (epSources E ks).Nodup := by
      unfold nodesOfEP at hnd
      cases hgl : ks.getLast? with
      | none =>
        rw [List.getLast?_eq_none_iff] at hgl
        exact absurd hgl hne
      | some k =>
        rw [hgl] at hnd
        exact hnd.of_append_left
    have hksn : ks.Nodup := List.Nodup.of_map _ hsn
    exact mem_listsLE hk (nodup_bound_length hksn hk)

theorem nodesOfEP_eq {E : List PEdge} {ks : List Nat} {k : Nat}
    (h : ks.getLast? = some k) :
    nodesOfEP E ks = epSources E ks ++ [(E.getD k dE).target] := by
  unfold nodesOfEP
  rw [h]

theorem nodesOfEP_cons {E : List PEdge} {k1 : Nat} {ks : List Nat} (h : ks ≠ []) :
    nodesOfEP E (k1 :: ks) = (E.getD k1 dE).source :: nodesOfEP E ks := by
  cases ks with
  | nil => exact absurd rfl h
  | cons k2 r =>
    unfold nodesOfEP epSources
    rw [List.getLast?_cons_cons]
    cases hgl : (k2 :: r).getLast? with
    | none =>
      rw [List.getLast?_eq_none_iff] at hgl
      cases hgl
    | some k => simp

theorem nodesOfEP_head {E : List PEdge} (k : Nat) (t : List Nat) :
    (nodesOfEP E (k :: t)).head? = some (E.getD k dE).source := by
  cases t with
  | nil => rfl
  | cons k2 r => rw [nodesOfEP_cons (by simp)]; rfl

theorem pairsOf_cons_of_head {α : Type} (x y : α) (l : List α)
    (h : l.head? = some y) : pairsOf (x :: l) = (x, y) :: pairsOf l := by
  cases l with
  | nil => cases h
  | cons z t =>
    have : z = y := by simpa using h
    subst this
    rfl

theorem pairsOf_nodesOfEP {E : List PEdge} {ks : List Nat}
    (hch : ∀ q ∈ pairsOf ks, (E.getD q.1 dE).target = (E.getD q.2 dE).source)
    (hne : ks ≠ []) :
    pairsOf (nodesOfEP E ks) =
      ks.map fun k => ((E.getD k dE).source, (E.getD k dE).target) := by
  induction ks with
  | nil => exact absurd rfl hne
  | cons k1 t ih =>
    cases t with
    | nil => rfl
    | cons k2 r =>
      rw [nodesOfEP_cons (by simp)]
      have hh : (nodesOfEP E (k2 :: r)).head? = some (E.getD k2 dE).source :=
        nodesOfEP_head k2 r
      rw [pairsOf_cons_of_head _ _ _ hh]
      have hfirst : (E.getD k1 dE).target = (E.getD k2 dE).source :=
        hch (k1, k2) (by rw [pairsOf_cons_cons]; simp)
      rw [ih (fun q hq => hch q (by rw [pairsOf_cons_cons]; exact List.mem_cons_of_mem _ hq)) (by simp)]
      rw [← hfirst]
      simp

theorem hasEdgeE_of_getD {E : List PEdge} {k : Nat} (hk : k < E.length) :
    hasEdgeE E (E.getD k dE).source (E.getD k dE).target = true := by
  unfold hasEdgeE
  simp only [List.any_eq_true, Bool.and_eq_true, beq_iff_eq]
  refine ⟨E.getD k dE, ?_, rfl, rfl⟩
  rw [List.getD_eq_getElem _ _ hk]
  exact List.getElem_mem hk

theorem epath_isSP {n : Nat} {E : List PEdge} {a b : Nat} {ks : List Nat}
    (h : IsEP n E a b ks) : IsSP n E a b (nodesOfEP E ks) := by
  obtain ⟨hne, hk, hch, hhd, hlast, hnd, hb⟩ := h
  obtain ⟨klast, hgl, hkb⟩ := Option.map_eq_some'.mp hlast
  have hunf : nodesOfEP E ks = epSources E ks ++ [(E.getD klast dE).target] := by
    unfold nodesOfEP
    rw [hgl]
  refine ⟨?_, ?_, ?_, hb, hnd, ?_⟩
  · cases ks with
    | nil => exact absurd rfl hne
    | cons k1 t =>
      rw [nodesOfEP_head]
      unfold epSources at hhd
      simpa using hhd
  · rw [hunf, List.getLast?_concat, hkb]
  · rw [hunf]
    have : (epSources E ks).length = ks.length := by simp [epSources]
    have hlen : 1 ≤ ks.length := by
      cases ks with
      | nil => exact absurd rfl hne
      | cons x t => simp
    simp only [List.length_append, List.length_cons, List.length_nil]
    omega
  · intro uv huv
    rw [pairsOf_nodesOfEP hch hne] at huv
    obtain ⟨k, hkmem, rfl⟩ := List.mem_map.mp huv
    exact hasEdgeE_of_getD (hk k hkmem)

theorem epath_stepSum {n : Nat} {E : List PEdge} {a b : Nat} {ks : List Nat}
    (hPC : ParallelConsistent E) (h : IsEP n E a b ks) :
    stepSumE E (nodesOfEP E ks) = epDurSum E ks := by
  obtain ⟨hne, hk, hch, hhd, hlast, hnd, hb⟩ := h
  unfold stepSumE durListE epDurSum
  rw [pairsOf_nodesOfEP hch hne, List.map_map]
  congr 1
  apply List.map_congr_left
  intro k hkmem
  have hklen := hk k hkmem
  have hmem : E.getD k dE ∈ E := by
    rw [List.getD_eq_getElem _ _ hklen]
    exact List.getElem_mem hklen
  exact hPC (E.getD k dE) hmem

theorem pick_spec {E : List PEdge} {u v : Nat} (h : hasEdgeE E u v = true) :
    (findEdgeE E u v).getD 0 < E.length ∧
    (E.getD ((findEdgeE E u v).getD 0) dE).source = u ∧
    (E.getD ((findEdgeE E u v).getD 0) dE).target = v ∧
    (E.getD ((findEdgeE E u v).getD 0) dE).task.duration = stepDurE E u v := by
  obtain ⟨k, hk, h1, h2, h3⟩ := findEdgeE_spec h
  rw [hk]
  simp only [Option.getD_some]
  refine ⟨h1, h2, h3, ?_⟩
  unfold stepDurE
  rw [hk]

theorem pairsOf_mem {α : Type} {p : List α} {q : α × α} (h : q ∈ pairsOf p) :
    q.1 ∈ p ∧ q.2 ∈ p := by
  unfold pairsOf at h
  have h2 := List.of_mem_zip (by exact h)
  exact ⟨h2.1, List.mem_of_mem_tail h2.2⟩

theorem npath_to_epath {n : Nat} {E : List PEdge} {a b : Nat} {p : List Nat}
    (h : IsSP n E a b p) :
    IsEP n E a b (epOf E p) ∧ nodesOfEP E (epOf E p) = p ∧
      epDurSum E (epOf E p) = stepSumE E p := by
  obtain ⟨hh, hl, hlen, hbnd, hnd, hchain⟩ := h
  have hpickS : ∀ uv ∈ pairsOf p,
      (E.getD ((findEdgeE E uv.1 uv.2).getD 0) dE).source = uv.1 :=
    fun uv huv => (pick_spec (hchain uv huv)).2.1
  have hpickT : ∀ uv ∈ pairsOf p,
      (E.getD ((findEdgeE E uv.1 uv.2).getD 0) dE).target = uv.2 :=
    fun uv huv => (pick_spec (hchain uv huv)).2.2.1
  have hpickL : ∀ uv ∈ pairsOf p, (findEdgeE E uv.1 uv.2).getD 0 < E.length :=
    fun uv huv => (pick_spec (hchain uv huv)).1
  have hpickD : ∀ uv ∈ pairsOf p,
      (E.getD ((findEdgeE E uv.1 uv.2).getD 0) dE).task.duration =
        stepDurE E uv.1 uv.2 :=
    fun uv huv => (pick_spec (hchain uv huv)).2.2.2
  have hne : pairsOf p ≠ [] := pairsOf_ne_nil hlen
  have hpne : p ≠ [] := by
    cases p with
    | nil => simp at hlen
    | cons x t => simp
  -- sources of the induced edge path are the path without its last node
  have hsrc : epSources E (epOf E p) = p.dropLast := by
    unfold epSources epOf
    rw [List.map_map]
    have hcongr : (pairsOf p).map
        ((fun j => (E.getD j dE).source) ∘ fun uv => (findEdgeE E uv.1 uv.2).getD 0) =
        (pairsOf p).map Prod.fst := by
      apply List.map_congr_left
      intro uv huv
      exact hpickS uv huv
    rw [hcongr]
    exact pairsOf_map_fst p
  -- last edge of the induced edge path
  obtain ⟨qlast, hql⟩ : ∃ q, (pairsOf p).getLast? = some q := by
    cases hq : (pairsOf p).getLast? with
    | none =>
      rw [List.getLast?_eq_none_iff] at hq
      exact absurd hq hne
    | some q => exact ⟨q, rfl⟩
  have hqlast_mem : qlast ∈ pairsOf p := mem_of_getLast?_eq hql
  have hq2 : qlast.2 = p.getLast hpne := by
    have hsnd := pairsOf_getLast_snd hlen
    rw [hql] at hsnd
    rw [List.getLast?_eq_getLast _ hpne] at hsnd
    simpa using hsnd
  have hepl : (epOf E p).getLast? = some ((findEdgeE E qlast.1 qlast.2).getD 0) := by
    unfold epOf
    rw [List.getLast?_map, hql]
    rfl
  have hlast2 : p.getLast hpne = b := by
    rw [List.getLast?_eq_getLast _ hpne] at hl
    simpa using hl
  -- the node sequence of the induced edge path is the original path
  have hnodes : nodesOfEP E (epOf E p) = p := by
    rw [nodesOfEP_eq hepl, hsrc, hpickT qlast hqlast_mem, hq2]
    exact List.dropLast_append_getLast hpne
  refine ⟨⟨?_, ?_, ?_, ?_, ?_, ?_, ?_⟩, hnodes, ?_⟩
  · unfold epOf
    intro hc
    rw [List.map_eq_nil_iff] at hc
    exact hne hc
  · intro k hk
    unfold epOf at hk
    obtain ⟨uv, huv, rfl⟩ := List.mem_map.mp hk
    exact hpickL uv huv
  · intro q hq
    unfold epOf at hq
    rw [pairsOf_map] at hq
    obtain ⟨r, hr, rfl⟩ := List.mem_map.mp hq
    have hmem1 : r.1 ∈ pairsOf p := (pairsOf_mem hr).1
    have hmem2 : r.2 ∈ pairsOf p := (pairsOf_mem hr).2
    rw [hpickT r.1 hmem1, hpickS r.2 hmem2]
    exact pairsOf_adj r hr
  · rw [hsrc]
    cases hp2 : p with
    | nil => exact absurd hp2 hpne
    | cons x t =>
      subst hp2
      have hx : x = a := by simpa using hh
      subst hx
      cases t with
      | nil => simp at hlen
      | cons y r => simp
  · rw [hepl]
    simp only [Option.map_some']
    rw [hpickT qlast hqlast_mem, hq2, hlast2]
  · rw [hnodes]
    exact hnd
  · rw [hnodes]
    exact hbnd
  · unfold epDurSum epOf stepSumE durListE
    rw [List.map_map]
    congr 1
    apply List.map_congr_left
    intro uv huv
    exact hpickD uv huv

/-- Core refinement equality: under duration-consistent parallel edges and
no u32 overflow, the code's fastest-begin computation equals the spec's
maximum duration sum over simple edge paths. -/
theorem fbE_eq_spec {n : Nat} {E : List PEdge} (hPC : ParallelConsistent E)
    (hSM : n * totalDur E < W) (a b : Nat) :
    fbE n E a b = specFastestBegin n E a b := by
  unfold fbE specFastestBegin
  rw [listMax?_congr]
  intro x
  simp only [List.mem_map]
  constructor
  · rintro ⟨p, hp, rfl⟩
    have hsp := mem_simplePathsE.mp hp
    have hlen : p.length ≤ n := nodup_bound_length hsp.2.2.2.2.1 hsp.2.2.2.1
    have hless : stepSumE E p < W :=
      Nat.lt_of_le_of_lt (Nat.le_trans (stepSumE_le hlen)
        (Nat.le_refl _)) hSM
    have hwrap : wrapFoldAdd (durListE E p) = stepSumE E p :=
      wrapFoldAdd_eq_sum hless
    obtain ⟨hep, hnodes, hdur⟩ := npath_to_epath hsp
    exact ⟨epOf E p, mem_edgePathsE.mpr hep, by rw [hdur, hwrap]⟩
  · rintro ⟨ks, hks, rfl⟩
    have hep := mem_edgePathsE.mp hks
    have hsp := epath_isSP hep
    have hss : stepSumE E (nodesOfEP E ks) = epDurSum E ks := epath_stepSum hPC hep
    have hlen : (nodesOfEP E ks).length ≤ n :=
      nodup_bound_length hsp.2.2.2.2.1 hsp.2.2.2.1
    have hless : stepSumE E (nodesOfEP E ks) < W :=
      Nat.lt_of_le_of_lt (stepSumE_le hlen) hSM
    have hwrap : wrapFoldAdd (durListE E (nodesOfEP E ks)) =
        stepSumE E (nodesOfEP E ks) := wrapFoldAdd_eq_sum hless
    exact ⟨nodesOfEP E ks, mem_simplePathsE.mpr hsp, by rw [hwrap, hss]⟩

/-!  No path from a node to itself; accessors into the pipeline result. -/

theorem not_IsSP_self {n : Nat} {E : List PEdge} {a : Nat} {p : List Nat}
    (h : IsSP n E a a p) : False := by
  obtain ⟨hh, hl, hlen, -, hnd, -⟩ := h
  cases p with
  | nil => cases hh
  | cons x t =>
    have hx : x = a := by simpa using hh
    subst hx
    cases t with
    | nil => simp at hlen
    | cons y r =>
      rw [List.getLast?_cons_cons] at hl
      have hmem : x ∈ y :: r := mem_of_getLast?_eq hl
      exact (List.nodup_cons.mp hnd).1 hmem

theorem simplePathsE_self (n : Nat) (E : List PEdge) (a : Nat) :
    simplePathsE n E a a = [] := by
  unfold simplePathsE
  rw [List.filter_eq_nil_iff]
  intro p hp
  intro hc
  exact not_IsSP_self (isPathB_iff.mp hc)

theorem fbE_self (n : Nat) (E : List PEdge) (a : Nat) : fbE n E a a = 0 := by
  unfold fbE
  rw [simplePathsE_self]
  rfl

theorem lfE_self (n : Nat) (E : List PEdge) (t a : Nat) : lfE n E t a a = t := by
  unfold lfE
  rw [simplePathsE_self]
  rfl

theorem end_node_setFB (g : PertGraph) (s : Nat) :
    end_node (setFB g s) = end_node g := by
  unfold end_node
  rw [setFB_len, setFB_edges]

theorem nodeFB_pertOut {g g' : PertGraph} {s : Nat} (h : Pert.new g = .ok g')
    (hs : start_node g = .ok s) {i : Nat} (hi : i < g.nodes.length) :
    nodeFB g' i = fbE g.nodes.length g.edges s i := by
  obtain ⟨s2, e, hs2, he, rfl⟩ := pertNew_ok_iff.mp h
  rw [hs] at hs2
  injection hs2 with hs3
  subst hs3
  rw [nodeFB_setFloats, nodeFB_setLF, nodeFB_setFB g s i hi]
  rfl

theorem nodeLF_pertOut {g g' : PertGraph} {s e : Nat} (h : Pert.new g = .ok g')
    (hs : start_node g = .ok s) (he : end_node g = .ok e) {i : Nat}
    (hi : i < g.nodes.length) :
    nodeLF g' i =
      lfE g.nodes.length g.edges (fbE g.nodes.length g.edges s e) i e := by
  obtain ⟨s2, e2, hs2, he2, rfl⟩ := pertNew_ok_iff.mp h
  rw [hs] at hs2
  injection hs2 with hs3
  subst hs3
  rw [end_node_setFB, he] at he2
  injection he2 with he3
  subst he3
  have hilen : i < (setFB g s).nodes.length := by
    rw [setFB_len]
    exact hi
  rw [nodeLF_setFloats, nodeLF_setLF _ _ _ hilen]
  unfold compute_latest_finish
  rw [setFB_len, setFB_edges]
  have helen : e < g.nodes.length := (end_node_ok_iff.mp he).1
  rw [nodeFB_setFB g s e helen]
  rfl

/-- C1 (amended): for every network accepted by the pipeline in which every
edge's duration equals its pair's find_edge duration (in particular, no
parallel edges of unequal durations) and whose path duration sums cannot
overflow u32, the computed fastest_begin of every node equals the maximum,
over all simple paths from the start node, of the sum of the durations of
the edges along the path, and equals 0 for the start node (or any node
with no path from the start, where the maximum defaults to 0). -/
theorem claimC1_amended (g g' : PertGraph) (s : Nat)
    (hok : Pert.new g = .ok g') (hs : start_node g = .ok s)
    (hPC : ParallelConsistent g.edges)
    (hSM : g.nodes.length * totalDur g.edges < W) :
    (∀ i, i < g.nodes.length →
      nodeFB g' i = specFastestBegin g.nodes.length g.edges s i) ∧
    nodeFB g' s = 0 := by
  have hmain : ∀ i, i < g.nodes.length →
      nodeFB g' i = specFastestBegin g.nodes.length g.edges s i := by
    intro i hi
    rw [nodeFB_pertOut hok hs hi, fbE_eq_spec hPC hSM]
  refine ⟨hmain, ?_⟩
  have hslen : s < g.nodes.length := (start_node_ok_iff.mp hs).1
  rw [nodeFB_pertOut hok hs hslen, fbE_self]

set_option maxRecDepth 8000 in
/-- Witness for C1 (amended) at the diamond network: node 2 (event label 3)
gets fastest_begin equal to the longest-path maximum. -/
theorem claimC1_witness :
    nodeFB (pertOut wG) 2 = specFastestBegin wG.nodes.length wG.edges 0 2 :=
  (claimC1_amended wG (pertOut wG) 0 (by decide) (by decide) (by decide)
    (by decide)).1 2 (by decide)

/-- C6 (amended): for every well-formed acyclic network accepted by the
pipeline whose parallel edges are duration-consistent and whose path sums
fit in u32, the end node satisfies fastestBegin = latestFinish, and the
common value equals the length of the longest start-to-end simple path. -/
theorem claimC6_amended (g g' : PertGraph) (s e : Nat)
    (hok : Pert.new g = .ok g') (hs : start_node g = .ok s)
    (he : end_node g = .ok e) (_hAC : AcyclicE g.nodes.length g.edges)
    (hPC : ParallelConsistent g.edges)
    (hSM : g.nodes.length * totalDur g.edges < W) :
    nodeFB g' e = nodeLF g' e ∧
    nodeFB g' e = specFastestBegin g.nodes.length g.edges s e := by
  have helen : e < g.nodes.length := (end_node_ok_iff.mp he).1
  have h1 : nodeFB g' e = fbE g.nodes.length g.edges s e :=
    nodeFB_pertOut hok hs helen
  have h2 : nodeLF g' e =
      lfE g.nodes.length g.edges (fbE g.nodes.length g.edges s e) e e :=
    nodeLF_pertOut hok hs he helen
  rw [h1, h2, lfE_self]
  exact ⟨rfl, fbE_eq_spec hPC hSM s e⟩

set_option maxRecDepth 8000 in
/-- Witness for C6 (amended) at the diamond network. -/
theorem claimC6_witness :
    nodeFB (pertOut wG) 3 = nodeLF (pertOut wG) 3 :=
  (claimC6_amended wG (pertOut wG) 0 3 (by decide) (by decide) (by decide)
    (acyclicB_sound (by decide)) (by decide) (by decide)).1

/-!  Walk manipulation: pairs under append, de-looping, acyclicity. -/

theorem pairsOf_append {α : Type} {l1 l2 : List α} {u v : α}
    (h1 : l1.getLast? = some u) (h2 : l2.head? = some v) :
    pairsOf (l1 ++ l2) = pairsOf l1 ++ (u, v) :: pairsOf l2 := by
  induction l1 with
  | nil => cases h1
  | cons x t ih =>
    cases t with
    | nil =>
      have hx : x = u := by simpa using h1
      subst hx
      rw [List.singleton_append, pairsOf_cons_of_head _ _ _ h2]
      rfl
    | cons y r =>
      rw [List.getLast?_cons_cons] at h1
      have hih := ih h1
      have e1 : (x :: y :: r) ++ l2 = x :: y :: (r ++ l2) := by simp
      have e2 : (y :: r) ++ l2 = y :: (r ++ l2) := by simp
      rw [e1, pairsOf_cons_cons]
      rw [e2] at hih
      rw [hih, pairsOf_cons_cons]
      simp

theorem pairsOf_prefix_mem {α : Type} {l1 l2 : List α} {q : α × α}
    (h : q ∈ pairsOf l1) : q ∈ pairsOf (l1 ++ l2) := by
  induction l1 with
  | nil => cases h
  | cons x t ih =>
    cases t with
    | nil => cases h
    | cons y r =>
      rw [pairsOf_cons_cons] at h
      rw [List.cons_append, show ((y :: r) ++ l2) = (y :: (r ++ l2)) from rfl,
        pairsOf_cons_cons]
      rcases List.mem_cons.mp h with rfl | h2
      · exact List.mem_cons_self _ _
      · exact List.mem_cons_of_mem _ (ih h2)

theorem pairsOf_suffix_mem {α : Type} {l1 l2 : List α} {q : α × α}
    (h : q ∈ pairsOf l2) : q ∈ pairsOf (l1 ++ l2) := by
  induction l1 with
  | nil => exact h
  | cons x t ih =>
    have hne : t ++ l2 ≠ [] := by
      intro hc
      rw [List.append_eq_nil] at hc
      rw [hc.2] at h
      cases h
    obtain ⟨z, hz⟩ : ∃ z, (t ++ l2).head? = some z := by
      cases hcc : t ++ l2 with
      | nil => exact absurd hcc hne
      | cons z r => exact ⟨z, by simp [hcc]⟩
    rw [List.cons_append, pairsOf_cons_of_head _ _ _ hz]
    exact List.mem_cons_of_mem _ ih

theorem find_dup {l : List Nat} (h : ¬ l.Nodup) :
    ∃ x a b c, l = a ++ x :: b ++ x :: c := by
  induction l with
  | nil => simp at h
  | cons y t ih =>
    by_cases hy : y ∈ t
    · obtain ⟨b, c, rfl⟩ := List.append_of_mem hy
      exact ⟨y, [], b, c, by simp⟩
    · have ht : ¬ t.Nodup := by
        intro hc
        exact h (List.nodup_cons.mpr ⟨hy, hc⟩)
      obtain ⟨x, a, b, c, rfl⟩ := ih ht
      exact ⟨x, y :: a, b, c, rfl⟩

theorem getLast?_append_right {α : Type} {l1 l2 : List α} {y : α}
    (h : l2.getLast? = some y) : (l1 ++ l2).getLast? = some y := by
  rw [List.getLast?_append, h]
  rfl

theorem head?_append_left {α : Type} {l1 l2 : List α} {y : α}
    (h : l1.head? = some y) : (l1 ++ l2).head? = some y := by
  cases l1 with
  | nil => cases h
  | cons x t =>
    have hx : x = y := by simpa using h
    subst hx
    rfl

theorem deloop_fuel {E : List PEdge} :
    ∀ (len : Nat) (w : List Nat), w.length ≤ len → IsChain E w → w ≠ [] →
      ∃ w2, IsChain E w2 ∧ w2.Nodup ∧ w2.head? = w.head? ∧
        w2.getLast? = w.getLast? ∧ ∀ x ∈ w2, x ∈ w := by
  intro len
  induction len with
  | zero =>
    intro w hlen hch hne
    cases w with
    | nil => exact absurd rfl hne
    | cons x t => simp at hlen
  | succ len ih =>
  intro w hlen hch hne
  by_cases hnd : w.Nodup
  · exact ⟨w, hch, hnd, rfl, rfl, fun x hx => hx⟩
  · obtain ⟨x, a, b, c, rfl⟩ := find_dup hnd
    have hw1 : (a ++ x :: b) ++ x :: c = (a ++ [x]) ++ (b ++ x :: c) := by simp
    have hw2 : a ++ x :: c = (a ++ [x]) ++ c := by simp
    have hglA : (a ++ [x]).getLast? = some x := List.getLast?_concat a
    have hxmem : ∀ y ∈ a ++ x :: c, y ∈ (a ++ x :: b) ++ x :: c := by
      intro y hy
      simp only [List.mem_append, List.mem_cons] at hy ⊢
      tauto
    have hsub : ∀ q ∈ pairsOf (a ++ x :: c),
        q ∈ pairsOf ((a ++ x :: b) ++ x :: c) := by
      intro q hq
      rw [hw2] at hq
      rw [hw1]
      cases c with
      | nil =>
        rw [List.append_nil] at hq
        exact pairsOf_prefix_mem hq
      | cons z c2 =>
        rw [pairsOf_append hglA (show (z :: c2).head? = some z from rfl)] at hq
        rcases List.mem_append.mp hq with h1 | h1
        · exact pairsOf_prefix_mem h1
        · have h2 : q ∈ pairsOf (x :: z :: c2) := by
            rw [pairsOf_cons_cons]
            exact h1
          have h3 : q ∈ pairsOf (b ++ x :: z :: c2) := pairsOf_suffix_mem h2
          exact pairsOf_suffix_mem h3
    have hch2 : IsChain E (a ++ x :: c) := fun q hq => hch q (hsub q hq)
    have hne2 : a ++ x :: c ≠ [] := by simp
    have hlen2 : (a ++ x :: c).length ≤ len := by
      simp only [List.length_append, List.length_cons] at hlen ⊢
      omega
    obtain ⟨w2, hc2, hnd2, hh2, hl2, hm2⟩ :=
      ih (a ++ x :: c) hlen2 hch2 hne2
    refine ⟨w2, hc2, hnd2, ?_, ?_, fun y hy => hxmem y (hm2 y hy)⟩
    · rw [hh2]
      cases a with
      | nil => rfl
      | cons a0 a2 => rfl
    · rw [hl2]
      cases c with
      | nil =>
        show (a ++ [x]).getLast? = ((a ++ x :: b) ++ [x]).getLast?
        rw [hglA, List.getLast?_concat]
      | cons z c2 =>
        have hzne : z :: c2 ≠ [] := by simp
        have hr : (z :: c2).getLast? = some ((z :: c2).getLast hzne) :=
          List.getLast?_eq_getLast _ _
        rw [show a ++ x :: z :: c2 = (a ++ [x]) ++ (z :: c2) by simp]
        rw [show (a ++ x :: b) ++ x :: z :: c2 = ((a ++ x :: b) ++ [x]) ++ (z :: c2) by simp]
        rw [getLast?_append_right hr, getLast?_append_right hr]

theorem deloop {E : List PEdge} (w : List Nat) (hch : IsChain E w)
    (hne : w ≠ []) :
    ∃ w2, IsChain E w2 ∧ w2.Nodup ∧ w2.head? = w.head? ∧
      w2.getLast? = w.getLast? ∧ ∀ x ∈ w2, x ∈ w :=
  deloop_fuel w.length w (Nat.le_refl _) hch hne

theorem isCycleB_of {n : Nat} {E : List PEdge} {w : List Nat} {u h : Nat}
    (hch : IsChain E w) (hnd : w.Nodup) (hbnd : ∀ x ∈ w, x < n)
    (hh : w.head? = some h) (hl : w.getLast? = some u)
    (he : hasEdgeE E u h = true) : isCycleB n E w = true := by
  unfold isCycleB
  have hne : w ≠ [] := by
    intro hc
    subst hc
    cases hh
  simp only [Bool.and_eq_true, List.all_eq_true, decide_eq_true_eq,
    Bool.not_eq_true', List.isEmpty_eq_false]
  refine ⟨⟨⟨⟨hne, hbnd⟩, hnd⟩, ?_⟩, ?_⟩
  · unfold chainB
    rw [List.all_eq_true]
    intro q hq
    exact hch q hq
  · rw [hl, hh]
    exact he

theorem acyclic_no_loop {n : Nat} {E : List PEdge} (hAC : AcyclicE n E)
    {u h : Nat} {w : List Nat} (hw : IsChain E w) (hw1 : w.head? = some h)
    (hw2 : w.getLast? = some u) (hbnd : ∀ x ∈ w, x < n)
    (he : hasEdgeE E u h = true) : False := by
  have hne : w ≠ [] := by
    intro hc
    subst hc
    cases hw1
  obtain ⟨w2, hc2, hnd2, hh2, hl2, hm2⟩ := deloop w hw hne
  have hcyc : isCycleB n E w2 = true :=
    isCycleB_of hc2 hnd2 (fun x hx => hbnd x (hm2 x hx))
      (hh2.trans hw1) (hl2.trans hw2) he
  have := hAC w2
  rw [hcyc] at this
  cases this

/-!  Reachability in an accepted acyclic network. -/

theorem mem_of_head?_eq {α : Type} {l : List α} {x : α} (h : l.head? = some x) :
    x ∈ l := by
  cases l with
  | nil => cases h
  | cons y t =>
    have : y = x := by simpa using h
    subst this
    exact List.mem_cons_self _ _

theorem complete_of_length {n : Nat} {p : List Nat} (hnd : p.Nodup)
    (hb : ∀ x ∈ p, x < n) (hlen : n ≤ p.length) : ∀ j, j < n → j ∈ p := by
  intro j hj
  have h1 : p.toFinset.card = p.length := List.toFinset_card_of_nodup hnd
  have h2 : p.toFinset ⊆ Finset.range n := by
    intro x hx
    rw [List.mem_toFinset] at hx
    rw [Finset.mem_range]
    exact hb x hx
  have h3 : p.toFinset = Finset.range n := by
    apply Finset.eq_of_subset_of_card_le h2
    rw [h1, Finset.card_range]
    exact hlen
  have : j ∈ p.toFinset := by
    rw [h3, Finset.mem_range]
    exact hj
  rwa [List.mem_toFinset] at this

theorem no_pred_in_path {n : Nat} {E : List PEdge} (hAC : AcyclicE n E)
    {p p1 p2 : List Nat} {u h : Nat} (hch : IsChain E p)
    (hb : ∀ x ∈ p, x < n) (hh : p.head? = some h)
    (hsplit : p = p1 ++ u :: p2) (he : hasEdgeE E u h = true) : False := by
  have hw2 : p = (p1 ++ [u]) ++ p2 := by
    rw [hsplit]
    simp
  have hchw : IsChain E (p1 ++ [u]) := by
    intro q hq
    apply hch
    rw [hw2]
    exact pairsOf_prefix_mem hq
  have hhw : (p1 ++ [u]).head? = some h := by
    cases p1 with
    | nil =>
      have : p.head? = some u := by rw [hsplit]; rfl
      rw [hh] at this
      injection this with h2
      rw [h2]
      rfl
    | cons y t =>
      have : p.head? = some y := by rw [hsplit]; rfl
      rw [hh] at this
      injection this with h2
      rw [← h2]
      rfl
  have hlw : (p1 ++ [u]).getLast? = some u := List.getLast?_concat p1
  have hbw : ∀ x ∈ p1 ++ [u], x < n := by
    intro x hx
    apply hb
    rw [hw2]
    exact List.mem_append.mpr (Or.inl hx)
  exact acyclic_no_loop hAC hchw hhw hlw hbw he

theorem no_succ_in_path {n : Nat} {E : List PEdge} (hAC : AcyclicE n E)
    {p p1 p2 : List Nat} {u h : Nat} (hch : IsChain E p)
    (hb : ∀ x ∈ p, x < n) (hl : p.getLast? = some h)
    (hsplit : p = p1 ++ u :: p2) (he : hasEdgeE E h u = true) : False := by
  have hchw : IsChain E (u :: p2) := by
    intro q hq
    apply hch
    rw [hsplit]
    exact pairsOf_suffix_mem hq
  have hne2 : u :: p2 ≠ [] := by simp
  have hlw : (u :: p2).getLast? = some h := by
    have hv : (u :: p2).getLast? = some ((u :: p2).getLast hne2) :=
      List.getLast?_eq_getLast _ _
    have : p.getLast? = some ((u :: p2).getLast hne2) := by
      rw [hsplit]
      exact getLast?_append_right hv
    rw [hl] at this
    injection this with h2
    rw [hv, ← h2]
  have hhw : (u :: p2).head? = some u := rfl
  have hbw : ∀ x ∈ u :: p2, x < n := by
    intro x hx
    apply hb
    rw [hsplit]
    exact List.mem_append.mpr (Or.inr hx)
  exact acyclic_no_loop hAC hchw hhw hlw hbw he

theorem extend_back {n : Nat} {E : List PEdge} {s : Nat}
    (hAC : AcyclicE n E) (hWI : wellIndexed n E)
    (hs3 : ∀ j, j < n → InDeg0 E j → j = s) :
    ∀ (k : Nat) (p : List Nat), IsChain E p → p.Nodup → (∀ x ∈ p, x < n) →
      p ≠ [] → n ≤ p.length + k →
      ∃ q, IsChain E q ∧ q.Nodup ∧ (∀ x ∈ q, x < n) ∧ q.head? = some s ∧
        q.getLast? = p.getLast? := by
  intro k
  induction k with
  | zero =>
    intro p hch hnd hb hne hcnt
    obtain ⟨h, hh⟩ : ∃ h, p.head? = some h := by
      cases p with
      | nil => exact absurd rfl hne
      | cons x t => exact ⟨x, rfl⟩
    by_cases hhs : h = s
    · subst hhs
      exact ⟨p, hch, hnd, hb, hh, rfl⟩
    · exfalso
      have hhn : h < n := hb h (mem_of_head?_eq hh)
      have hin : ¬ InDeg0 E h := fun hc => hhs (hs3 h hhn hc)
      obtain ⟨e, hemem, het⟩ : ∃ e ∈ E, e.target = h := by
        unfold InDeg0 at hin
        push_neg at hin
        exact hin
      have hedge : hasEdgeE E e.source h = true := by
        unfold hasEdgeE
        simp only [List.any_eq_true, Bool.and_eq_true, beq_iff_eq]
        exact ⟨e, hemem, rfl, het⟩
      by_cases hu : e.source ∈ p
      · obtain ⟨p1, p2, hsplit⟩ := List.append_of_mem hu
        exact no_pred_in_path hAC hch hb hh hsplit hedge
      · exact hu (complete_of_length hnd hb (by omega) e.source (hWI e hemem).1)
  | succ k ih =>
    intro p hch hnd hb hne hcnt
    obtain ⟨h, hh⟩ : ∃ h, p.head? = some h := by
      cases p with
      | nil => exact absurd rfl hne
      | cons x t => exact ⟨x, rfl⟩
    by_cases hhs : h = s
    · subst hhs
      exact ⟨p, hch, hnd, hb, hh, rfl⟩
    · have hhn : h < n := hb h (mem_of_head?_eq hh)
      have hin : ¬ InDeg0 E h := fun hc => hhs (hs3 h hhn hc)
      obtain ⟨e, hemem, het⟩ : ∃ e ∈ E, e.target = h := by
        unfold InDeg0 at hin
        push_neg at hin
        exact hin
      have hedge : hasEdgeE E e.source h = true := by
        unfold hasEdgeE
        simp only [List.any_eq_true, Bool.and_eq_true, beq_iff_eq]
        exact ⟨e, hemem, rfl, het⟩
      by_cases hu : e.source ∈ p
      · exfalso
        obtain ⟨p1, p2, hsplit⟩ := List.append_of_mem hu
        exact no_pred_in_path hAC hch hb hh hsplit hedge
      · have hch2 : IsChain E (e.source :: p) := by
          intro q hq
          rw [pairsOf_cons_of_head _ _ _ hh] at hq
          rcases List.mem_cons.mp hq with rfl | hq2
          · exact hedge
          · exact hch q hq2
        have hnd2 : (e.source :: p).Nodup := List.nodup_cons.mpr ⟨hu, hnd⟩
        have hb2 : ∀ x ∈ e.source :: p, x < n := by
          intro x hx
          rcases List.mem_cons.mp hx with rfl | hx2
          · exact (hWI e hemem).1
          · exact hb x hx2
        obtain ⟨q, hq1, hq2, hq3, hq4, hq5⟩ :=
          ih (e.source :: p) hch2 hnd2 hb2 (by simp) (by simp; omega)
        refine ⟨q, hq1, hq2, hq3, hq4, ?_⟩
        rw [hq5]
        cases p with
        | nil => exact absurd rfl hne
        | cons x t => rw [List.getLast?_cons_cons]

theorem extend_fwd {n : Nat} {E : List PEdge} {t : Nat}
    (hAC : AcyclicE n E) (hWI : wellIndexed n E)
    (ht3 : ∀ j, j < n → OutDeg0 E j → j = t) :
    ∀ (k : Nat) (p : List Nat), IsChain E p → p.Nodup → (∀ x ∈ p, x < n) →
      p ≠ [] → n ≤ p.length + k →
      ∃ q, IsChain E q ∧ q.Nodup ∧ (∀ x ∈ q, x < n) ∧ q.head? = p.head? ∧
        q.getLast? = some t := by
  intro k
  induction k with
  | zero =>
    intro p hch hnd hb hne hcnt
    obtain ⟨h, hh⟩ : ∃ h, p.getLast? = some h := by
      cases hc : p.getLast? with
      | none =>
        rw [List.getLast?_eq_none_iff] at hc
        exact absurd hc hne
      | some x => exact ⟨x, rfl⟩
    by_cases hht : h = t
    · subst hht
      exact ⟨p, hch, hnd, hb, rfl, hh⟩
    · exfalso
      have hhn : h < n := hb h (mem_of_getLast?_eq hh)
      have hout : ¬ OutDeg0 E h := fun hc => hht (ht3 h hhn hc)
      obtain ⟨e, hemem, hes⟩ : ∃ e ∈ E, e.source = h := by
        unfold OutDeg0 at hout
        push_neg at hout
        exact hout
      have hedge : hasEdgeE E h e.target = true := by
        unfold hasEdgeE
        simp only [List.any_eq_true, Bool.and_eq_true, beq_iff_eq]
        exact ⟨e, hemem, hes, rfl⟩
      by_cases hu : e.target ∈ p
      · obtain ⟨p1, p2, hsplit⟩ := List.append_of_mem hu
        exact no_succ_in_path hAC hch hb hh hsplit hedge
      · exact hu (complete_of_length hnd hb (by omega) e.target (hWI e hemem).2)
  | succ k ih =>
    intro p hch hnd hb hne hcnt
    obtain ⟨h, hh⟩ : ∃ h, p.getLast? = some h := by
      cases hc : p.getLast? with
      | none =>
        rw [List.getLast?_eq_none_iff] at hc
        exact absurd hc hne
      | some x => exact ⟨x, rfl⟩
    by_cases hht : h = t
    · subst hht
      exact ⟨p, hch, hnd, hb, rfl, hh⟩
    · have hhn : h < n := hb h (mem_of_getLast?_eq hh)
      have hout : ¬ OutDeg0 E h := fun hc => hht (ht3 h hhn hc)
      obtain ⟨e, hemem, hes⟩ : ∃ e ∈ E, e.source = h := by
        unfold OutDeg0 at hout
        push_neg at hout
        exact hout
      have hedge : hasEdgeE E h e.target = true := by
        unfold hasEdgeE
        simp only [List.any_eq_true, Bool.and_eq_true, beq_iff_eq]
        exact ⟨e, hemem, hes, rfl⟩
      by_cases hu : e.target ∈ p
      · exfalso
        obtain ⟨p1, p2, hsplit⟩ := List.append_of_mem hu
        exact no_succ_in_path hAC hch hb hh hsplit hedge
      · have hch2 : IsChain E (p ++ [e.target]) := by
          intro q hq
          rw [pairsOf_append hh (show [e.target].head? = some e.target from rfl)] at hq
          rcases List.mem_append.mp hq with h1 | h1
          · exact hch q h1
          · rcases List.mem_cons.mp h1 with rfl | h2
            · exact hedge
            · cases h2
        have hnd2 : (p ++ [e.target]).Nodup := by
          rw [List.nodup_append]
          exact ⟨hnd, List.nodup_singleton _, by
            intro x hx
            simp only [List.mem_singleton]
            intro hc
            subst hc
            exact hu hx⟩
        have hb2 : ∀ x ∈ p ++ [e.target], x < n := by
          intro x hx
          rcases List.mem_append.mp hx with h1 | h1
          · exact hb x h1
          · rcases List.mem_singleton.mp h1 with rfl
            exact (hWI e hemem).2
        obtain ⟨q, hq1, hq2, hq3, hq4, hq5⟩ :=
          ih (p ++ [e.target]) hch2 hnd2 hb2 (by simp) (by simp; omega)
        refine ⟨q, hq1, hq2, hq3, ?_, hq5⟩
        rw [hq4]
        cases p with
        | nil => exact absurd rfl hne
        | cons x r => rfl

theorem reach_from_start {n : Nat} {E : List PEdge} {s : Nat}
    (hAC : AcyclicE n E) (hWI : wellIndexed n E)
    (hs3 : ∀ j, j < n → InDeg0 E j → j = s) {i : Nat} (hi : i < n) :
    i = s ∨ ∃ p, IsSP n E s i p := by
  obtain ⟨q, hch, hnd, hb, hhd, hlast⟩ :=
    extend_back hAC hWI hs3 n [i] (by intro q hq; cases hq) (by simp)
      (by intro x hx; rcases List.mem_singleton.mp hx with rfl; exact hi)
      (by simp) (by simp)
  cases q with
  | nil => cases hhd
  | cons q0 qt =>
    have hq0 : q0 = s := by simpa using hhd
    cases qt with
    | nil =>
      left
      have h2 : q0 = i := by simpa using hlast
      omega
    | cons q1 qr =>
      right
      refine ⟨q0 :: q1 :: qr, ⟨by simp [hq0], by simpa using hlast, by simp,
        hb, hnd, hch⟩⟩

theorem reach_to_end {n : Nat} {E : List PEdge} {t : Nat}
    (hAC : AcyclicE n E) (hWI : wellIndexed n E)
    (ht3 : ∀ j, j < n → OutDeg0 E j → j = t) {i : Nat} (hi : i < n) :
    i = t ∨ ∃ p, IsSP n E i t p := by
  obtain ⟨q, hch, hnd, hb, hhd, hlast⟩ :=
    extend_fwd hAC hWI ht3 n [i] (by intro q hq; cases hq) (by simp)
      (by intro x hx; rcases List.mem_singleton.mp hx with rfl; exact hi)
      (by simp) (by simp)
  cases q with
  | nil => cases hhd
  | cons q0 qt =>
    have hq0 : q0 = i := by simpa using hhd
    cases qt with
    | nil =>
      left
      have h2 : q0 = t := by simpa using hlast
      omega
    | cons q1 qr =>
      right
      refine ⟨q0 :: q1 :: qr, ⟨by simp [hq0], hlast, by simp, hb, hnd, hch⟩⟩

/-!  Extending and concatenating simple paths in an acyclic graph. -/

theorem durListE_append_single {E : List PEdge} {p : List Nat} {v u : Nat}
    (hl : p.getLast? = some u) :
    durListE E (p ++ [v]) = durListE E p ++ [stepDurE E u v] := by
  unfold durListE
  rw [pairsOf_append hl (show [v].head? = some v from rfl)]
  simp [pairsOf]

theorem stepSumE_append_single {E : List PEdge} {p : List Nat} {v u : Nat}
    (hl : p.getLast? = some u) :
    stepSumE E (p ++ [v]) = stepSumE E p + stepDurE E u v := by
  unfold stepSumE
  rw [durListE_append_single hl]
  simp

theorem extend_SP {n : Nat} {E : List PEdge} {a u v : Nat} {p : List Nat}
    (hAC : AcyclicE n E) (hp : IsSP n E a u p)
    (he : hasEdgeE E u v = true) (hv : v < n) :
    IsSP n E a v (p ++ [v]) ∧
      stepSumE E (p ++ [v]) = stepSumE E p + stepDurE E u v := by
  obtain ⟨hh, hl, hlen, hb, hnd, hch⟩ := hp
  have hvp : v ∉ p := by
    intro hvin
    obtain ⟨p1, p2, hsplit⟩ := List.append_of_mem hvin
    exact no_succ_in_path hAC hch hb hl hsplit he
  refine ⟨⟨?_, ?_, ?_, ?_, ?_, ?_⟩, stepSumE_append_single hl⟩
  · exact head?_append_left hh
  · exact List.getLast?_concat p
  · simp only [List.length_append, List.length_singleton]
    omega
  · intro x hx
    rcases List.mem_append.mp hx with h1 | h1
    · exact hb x h1
    · rcases List.mem_singleton.mp h1 with rfl
      exact hv
  · rw [List.nodup_append]
    refine ⟨hnd, List.nodup_singleton _, ?_⟩
    intro x hx
    simp only [List.mem_singleton]
    intro hc
    subst hc
    exact hvp hx
  · intro q hq
    rw [pairsOf_append hl (show [v].head? = some v from rfl)] at hq
    rcases List.mem_append.mp hq with h1 | h1
    · exact hch q h1
    · rcases List.mem_cons.mp h1 with rfl | h2
      · exact he
      · cases h2

theorem concat_SP {n : Nat} {E : List PEdge} {a b c : Nat} {p q : List Nat}
    (hAC : AcyclicE n E) (hp : IsSP n E a b p) (hq : IsSP n E b c q) :
    IsSP n E a c (p ++ q.tail) ∧
      stepSumE E (p ++ q.tail) = stepSumE E p + stepSumE E q := by
  obtain ⟨hph, hpl, hplen, hpb, hpnd, hpch⟩ := hp
  obtain ⟨hqh, hql, hqlen, hqb, hqnd, hqch⟩ := hq
  cases q with
  | nil => cases hqh
  | cons b0 q' =>
  have hb0 : b0 = b := by simpa using hqh
  subst hb0
  have hq'ne : q' ≠ [] := by
    intro hc
    subst hc
    simp at hqlen
  obtain ⟨z, hz⟩ : ∃ z, q'.head? = some z := by
    cases q' with
    | nil => exact absurd rfl hq'ne
    | cons z r => exact ⟨z, rfl⟩
  have hql' : q'.getLast? = some c := by
    cases q' with
    | nil => exact absurd rfl hq'ne
    | cons z r =>
      rw [List.getLast?_cons_cons] at hql
      exact hql
  -- a node shared between p and the tail of q closes a directed cycle
  have hdisj : ∀ x ∈ p, x ∉ q' := by
    intro x hxp hxq
    obtain ⟨q1, q2, hsplit⟩ := List.append_of_mem hxq
    obtain ⟨p1, p2, hps⟩ := List.append_of_mem hxp
    have hqsplit : b0 :: q' = (b0 :: q1) ++ (x :: q2) := by
      rw [hsplit]
      rfl
    have hq1ne : b0 :: q1 ≠ [] := by simp
    obtain ⟨y, hy⟩ : ∃ y, (b0 :: q1).getLast? = some y :=
      ⟨_, List.getLast?_eq_getLast _ hq1ne⟩
    have hglue : (y, x) ∈ pairsOf (b0 :: q') := by
      rw [hqsplit, pairsOf_append hy (show (x :: q2).head? = some x from rfl)]
      exact List.mem_append.mpr (Or.inr (List.mem_cons_self _ _))
    have hedge : hasEdgeE E y x = true := hqch (y, x) hglue
    -- the suffix of p from x is a chain from x to b0
    have hw1ch : IsChain E (x :: p2) := by
      intro r hr
      apply hpch
      rw [hps]
      exact pairsOf_suffix_mem hr
    have hxp2ne : x :: p2 ≠ [] := by simp
    have hw1l : (x :: p2).getLast? = some b0 := by
      have hv2 : (x :: p2).getLast? = some ((x :: p2).getLast hxp2ne) :=
        List.getLast?_eq_getLast _ _
      have hpl2 : p.getLast? = some ((x :: p2).getLast hxp2ne) := by
        rw [hps]
        exact getLast?_append_right hv2
      rw [hpl] at hpl2
      injection hpl2 with h2
      rw [hv2, ← h2]
    have hw1b : ∀ w ∈ x :: p2, w < n := by
      intro w hw
      apply hpb
      rw [hps]
      exact List.mem_append.mpr (Or.inr hw)
    cases q1 with
    | nil =>
      -- the predecessor of x inside q is b0 itself
      have hyb : b0 = y := by simpa using hy
      subst hyb
      exact acyclic_no_loop hAC hw1ch (show (x :: p2).head? = some x from rfl)
        hw1l hw1b hedge
    | cons q10 q1r =>
      -- walk: x ⇝ b0 along p, then b0 ⇝ y along q's prefix, with edge y → x
      have hglue2 : hasEdgeE E b0 q10 = true := by
        apply hqch (b0, q10)
        rw [hqsplit]
        apply pairsOf_prefix_mem
        rw [pairsOf_cons_cons]
        exact List.mem_cons_self _ _
      have hw2ch : IsChain E (q10 :: q1r) := by
        intro r hr
        apply hqch
        rw [hqsplit]
        apply pairsOf_prefix_mem
        rw [pairsOf_cons_cons]
        exact List.mem_cons_of_mem _ hr
      have hwch : IsChain E ((x :: p2) ++ (q10 :: q1r)) := by
        intro r hr
        rw [pairsOf_append hw1l (show (q10 :: q1r).head? = some q10 from rfl)] at hr
        rcases List.mem_append.mp hr with h1 | h1
        · exact hw1ch r h1
        · rcases List.mem_cons.mp h1 with rfl | h2
          · exact hglue2
          · exact hw2ch r h2
      have hwh : ((x :: p2) ++ (q10 :: q1r)).head? = some x := rfl
      have hwl : ((x :: p2) ++ (q10 :: q1r)).getLast? = some y := by
        rw [List.getLast?_cons_cons] at hy
        exact getLast?_append_right hy
      have hwb : ∀ w ∈ (x :: p2) ++ (q10 :: q1r), w < n := by
        intro w hw
        rcases List.mem_append.mp hw with h1 | h1
        · exact hw1b w h1
        · apply hqb
          rw [hqsplit]
          exact List.mem_append.mpr (Or.inl (List.mem_cons_of_mem _ h1))
      exact acyclic_no_loop hAC hwch hwh hwl hwb hedge
  have hpne : p ≠ [] := by
    cases p with
    | nil => cases hph
    | cons w r => simp
  have hq'nd : q'.Nodup := (List.nodup_cons.mp hqnd).2
  have hchain2 : IsChain E (p ++ q') := by
    intro r hr
    rw [pairsOf_append hpl hz] at hr
    rcases List.mem_append.mp hr with h1 | h1
    · exact hpch r h1
    · rcases List.mem_cons.mp h1 with rfl | h2
      · exact hqch (b0, z) (by rw [pairsOf_cons_of_head _ _ _ hz]; exact List.mem_cons_self _ _)
      · exact hqch r (by rw [pairsOf_cons_of_head _ _ _ hz]; exact List.mem_cons_of_mem _ h2)
  have hsum : stepSumE E (p ++ q') = stepSumE E p + stepSumE E (b0 :: q') := by
    unfold stepSumE durListE
    rw [pairsOf_append hpl hz, pairsOf_cons_of_head _ _ _ hz]
    simp only [List.map_append, List.sum_append, List.map_cons, List.sum_cons]
  refine ⟨⟨?_, ?_, ?_, ?_, ?_, hchain2⟩, hsum⟩
  · exact head?_append_left hph
  · exact getLast?_append_right hql'
  · have h1 : 1 ≤ q'.length := by
      cases q' with
      | nil => exact absurd rfl hq'ne
      | cons w r => simp
    simp only [List.length_append]
    omega
  · intro x hx
    rcases List.mem_append.mp hx with h1 | h1
    · exact hpb x h1
    · exact hqb x (List.mem_cons_of_mem _ h1)
  · rw [List.nodup_append]
    refine ⟨hpnd, hq'nd, ?_⟩
    intro x hx
    exact hdisj x hx

/-!  Bounds on the computed fastest-begin values. -/

theorem stepSumE_lt_W {n : Nat} {E : List PEdge} {p : List Nat}
    (hSM : n * totalDur E < W) (hlen : p.length ≤ n) : stepSumE E p < W :=
  Nat.lt_of_le_of_lt (stepSumE_le hlen) hSM

theorem IsSP_len_le {n : Nat} {E : List PEdge} {a b : Nat} {p : List Nat}
    (hp : IsSP n E a b p) : p.length ≤ n :=
  nodup_bound_length hp.2.2.2.2.1 hp.2.2.2.1

theorem fbE_ge {n : Nat} {E : List PEdge} {a b : Nat} {p : List Nat}
    (hSM : n * totalDur E < W) (hp : IsSP n E a b p) :
    stepSumE E p ≤ fbE n E a b := by
  unfold fbE
  have hmem : wrapFoldAdd (durListE E p) ∈
      (simplePathsE n E a b).map fun p => wrapFoldAdd (durListE E p) :=
    List.mem_map_of_mem _ (mem_simplePathsE.mpr hp)
  have hwrap : wrapFoldAdd (durListE E p) = stepSumE E p :=
    wrapFoldAdd_eq_sum (stepSumE_lt_W hSM (IsSP_len_le hp))
  cases hm : listMax? ((simplePathsE n E a b).map fun p => wrapFoldAdd (durListE E p)) with
  | none =>
    rw [listMax?_eq_none_iff] at hm
    rw [hm] at hmem
    cases hmem
  | some m =>
    have hle := le_listMax? hmem hm
    rw [hwrap] at hle
    simpa using hle

theorem fbE_cases {n : Nat} {E : List PEdge} (a b : Nat)
    (hSM : n * totalDur E < W) :
    fbE n E a b = 0 ∨ ∃ p, IsSP n E a b p ∧ fbE n E a b = stepSumE E p := by
  unfold fbE
  cases hm : listMax? ((simplePathsE n E a b).map fun p => wrapFoldAdd (durListE E p)) with
  | none =>
    left
    rfl
  | some m =>
    right
    obtain ⟨p, hpmem, hval⟩ := List.mem_map.mp (listMax?_mem hm)
    have hsp := mem_simplePathsE.mp hpmem
    refine ⟨p, hsp, ?_⟩
    have hwrap : wrapFoldAdd (durListE E p) = stepSumE E p :=
      wrapFoldAdd_eq_sum (stepSumE_lt_W hSM (IsSP_len_le hsp))
    rw [← hwrap, hval]
    rfl

theorem fbE_lt_W {n : Nat} {E : List PEdge} (a b : Nat)
    (hSM : n * totalDur E < W) : fbE n E a b < W := by
  rcases fbE_cases a b hSM with h | ⟨p, hp, h⟩
  · rw [h]
    unfold W
    omega
  · rw [h]
    exact stepSumE_lt_W hSM (IsSP_len_le hp)

theorem fb_step {n : Nat} {E : List PEdge} {s : Nat}
    (hAC : AcyclicE n E) (hWI : wellIndexed n E) (hs2 : InDeg0 E s)
    (hs3 : ∀ j, j < n → InDeg0 E j → j = s)
    (hSM : n * totalDur E < W) {u v : Nat} (he : hasEdgeE E u v = true)
    (hu : u < n) (hv : v < n) :
    fbE n E s u + stepDurE E u v ≤ fbE n E s v := by
  by_cases hus : u = s
  · subst hus
    rw [fbE_self]
    simp only [Nat.zero_add]
    have hvs : v ≠ u := by
      intro hc
      subst hc
      unfold hasEdgeE at he
      simp only [List.any_eq_true, Bool.and_eq_true, beq_iff_eq] at he
      obtain ⟨e, hm, h1, h2⟩ := he
      exact hs2 e hm h2
    have hsp : IsSP n E u v [u, v] := by
      refine ⟨rfl, rfl, by simp, ?_, ?_, ?_⟩
      · intro x hx
        rcases List.mem_cons.mp hx with rfl | hx2
        · exact hu
        · rcases List.mem_singleton.mp hx2 with rfl
          exact hv
      · simp [Ne.symm hvs]
      · intro q hq
        rcases List.mem_singleton.mp hq with rfl
        exact he
    have hge := fbE_ge hSM hsp
    have hval : stepSumE E [u, v] = stepDurE E u v := by
      unfold stepSumE durListE
      simp [pairsOf]
    rw [hval] at hge
    exact hge
  · rcases reach_from_start hAC hWI hs3 hu with hc | ⟨p, hp⟩
    · exact absurd hc hus
    · rcases fbE_cases (n := n) (E := E) s u hSM with h0 | ⟨p2, hp2, hval⟩
      · rw [h0]
        simp only [Nat.zero_add]
        obtain ⟨hsp2, hsum2⟩ := extend_SP hAC hp he hv
        have hge := fbE_ge hSM hsp2
        rw [hsum2] at hge
        omega
      · obtain ⟨hsp2, hsum2⟩ := extend_SP hAC hp2 he hv
        have hge := fbE_ge hSM hsp2
        rw [hsum2, ← hval] at hge
        exact hge

theorem fb_concat_bound {n : Nat} {E : List PEdge} {s t : Nat}
    (hAC : AcyclicE n E) (hWI : wellIndexed n E)
    (hs3 : ∀ j, j < n → InDeg0 E j → j = s)
    (hSM : n * totalDur E < W) {i : Nat} (hi : i < n) {q : List Nat}
    (hq : IsSP n E i t q) :
    fbE n E s i + stepSumE E q ≤ fbE n E s t := by
  by_cases his : i = s
  · subst his
    rw [fbE_self]
    simp only [Nat.zero_add]
    exact fbE_ge hSM hq
  · rcases reach_from_start hAC hWI hs3 hi with hc | ⟨p, hp⟩
    · exact absurd hc his
    · rcases fbE_cases (n := n) (E := E) s i hSM with h0 | ⟨p2, hp2, hval⟩
      · rw [h0]
        simp only [Nat.zero_add]
        obtain ⟨hcsp, hcsum⟩ := concat_SP hAC hp hq
        have hge := fbE_ge hSM hcsp
        rw [hcsum] at hge
        omega
      · obtain ⟨hcsp, hcsum⟩ := concat_SP hAC hp2 hq
        have hge := fbE_ge hSM hcsp
        rw [hcsum, ← hval] at hge
        exact hge

theorem fb_triangle {n : Nat} {E : List PEdge} {s t : Nat}
    (hAC : AcyclicE n E) (hWI : wellIndexed n E)
    (hs3 : ∀ j, j < n → InDeg0 E j → j = s)
    (ht3 : ∀ j, j < n → OutDeg0 E j → j = t)
    (hSM : n * totalDur E < W) {v : Nat} (hv : v < n) :
    fbE n E s v + fbE n E v t ≤ fbE n E s t := by
  by_cases hvt : v = t
  · subst hvt
    rw [fbE_self]
    omega
  · rcases reach_to_end hAC hWI ht3 hv with hc | ⟨q0, hq0⟩
    · exact absurd hc hvt
    · rcases fbE_cases (n := n) (E := E) v t hSM with h0 | ⟨q2, hq2, hval⟩
      · rw [h0]
        have := fb_concat_bound hAC hWI hs3 hSM hv hq0
        omega
      · rw [hval]
        exact fb_concat_bound hAC hWI hs3 hSM hv hq2

/-!  The backward pass as exact subtraction. -/

theorem lfE_eq {n : Nat} {E : List PEdge} {T i t : Nat}
    (hSM : n * totalDur E < W) (hT : T < W)
    (hb : ∀ p, IsSP n E i t p → stepSumE E p ≤ T) :
    lfE n E T i t = T - fbE n E i t := by
  unfold lfE fbE
  have hm1 : ((simplePathsE n E i t).map fun p => wrapFoldSub T (durListE E p)) =
      (simplePathsE n E i t).map fun p => T - stepSumE E p := by
    apply List.map_congr_left
    intro p hp
    exact wrapFoldSub_eq_sub hT (hb p (mem_simplePathsE.mp hp))
  have hm2 : ((simplePathsE n E i t).map fun p => wrapFoldAdd (durListE E p)) =
      (simplePathsE n E i t).map fun p => stepSumE E p := by
    apply List.map_congr_left
    intro p hp
    exact wrapFoldAdd_eq_sum
      (stepSumE_lt_W hSM (IsSP_len_le (mem_simplePathsE.mp hp)))
  rw [hm1, hm2]
  rw [show ((simplePathsE n E i t).map fun p => T - stepSumE E p) =
    ((simplePathsE n E i t).map fun p => stepSumE E p).map fun x => T - x by
      rw [List.map_map]; rfl]
  rw [listMin?_map_sub]
  cases hm : listMax? ((simplePathsE n E i t).map fun p => stepSumE E p) with
  | none => simp
  | some m => simp

theorem specLF_eq (n : Nat) (E : List PEdge) (T i t : Nat) :
    specLatestFinish n E T i t = T - specFastestBegin n E i t := by
  unfold specLatestFinish specFastestBegin
  rw [show ((edgePathsE n E i t).map fun ks => T - epDurSum E ks) =
    ((edgePathsE n E i t).map fun ks => epDurSum E ks).map fun x => T - x by
      rw [List.map_map]; rfl]
  rw [listMin?_map_sub]
  cases hm : listMax? ((edgePathsE n E i t).map fun ks => epDurSum E ks) with
  | none => simp
  | some m => simp

/-!  The float subtractions never underflow on consistent networks. -/

theorem pertOut_edge_parts {g g' : PertGraph} (h : Pert.new g = .ok g') :
    g'.edges.length = g.edges.length ∧
    ∀ k, k < g.edges.length →
      (g'.edges.getD k dE).source = (g.edges.getD k dE).source ∧
      (g'.edges.getD k dE).target = (g.edges.getD k dE).target ∧
      (g'.edges.getD k dE).task.duration = (g.edges.getD k dE).task.duration := by
  obtain ⟨s, e, hs, he, rfl⟩ := pertNew_ok_iff.mp h
  constructor
  · simp [setFloats, setLF, setFB]
  · intro k hk
    have hk2 : k < (setLF (setFB g s) e).edges.length := by
      rw [setLF_edges, setFB_edges]
      exact hk
    have hed := getD_map (f := fun e0 =>
      { e0 with task :=
        { e0.task with
            total_float := (compute_floats (setLF (setFB g s) e) e0).total_float,
            free_float := (compute_floats (setLF (setFB g s) e) e0).free_float } }) dE dE hk2
    rw [show (setFloats (setLF (setFB g s) e)).edges =
      (setLF (setFB g s) e).edges.map (fun e0 =>
      { e0 with task :=
        { e0.task with
            total_float := (compute_floats (setLF (setFB g s) e) e0).total_float,
            free_float := (compute_floats (setLF (setFB g s) e) e0).free_float } }) from rfl]
    rw [hed]
    rw [setLF_edges, setFB_edges]
    exact ⟨rfl, rfl, rfl⟩

theorem edge_bounds {g g' : PertGraph} (hok : Pert.new g = .ok g')
    (hAC : AcyclicE g.nodes.length g.edges)
    (hWI : wellIndexed g.nodes.length g.edges)
    (hPC : ParallelConsistent g.edges)
    (hSM : g.nodes.length * totalDur g.edges < W) :
    ∀ k, k < g'.edges.length →
      nodeFB g' (g'.edges.getD k dE).source + (g'.edges.getD k dE).task.duration ≤
        nodeFB g' (g'.edges.getD k dE).target ∧
      nodeFB g' (g'.edges.getD k dE).target ≤ nodeLF g' (g'.edges.getD k dE).target ∧
      nodeLF g' (g'.edges.getD k dE).target < W ∧
      nodeFB g' (g'.edges.getD k dE).source + (g'.edges.getD k dE).task.duration ≤
        nodeLF g' (g'.edges.getD k dE).target := by
  obtain ⟨s, e2, hs0, he0, hgdef⟩ := pertNew_ok_iff.mp hok
  have hs : start_node g = .ok s := hs0
  have he : end_node g = .ok e2 := by
    rw [← end_node_setFB g s]
    exact he0
  obtain ⟨hs1, hs2, hs3⟩ := start_node_ok_iff.mp hs
  obtain ⟨he1, he2d, he3⟩ := end_node_ok_iff.mp he
  intro k hk
  have hlenE := (pertOut_edge_parts hok).1
  have hk' : k < g.edges.length := by
    rw [← hlenE]
    exact hk
  obtain ⟨hksrc, hktgt, hkdur⟩ := (pertOut_edge_parts hok).2 k hk'
  rw [hksrc, hktgt, hkdur]
  have hmem : g.edges.getD k dE ∈ g.edges := by
    rw [List.getD_eq_getElem _ _ hk']
    exact List.getElem_mem hk'
  have hu : (g.edges.getD k dE).source < g.nodes.length := (hWI _ hmem).1
  have hv : (g.edges.getD k dE).target < g.nodes.length := (hWI _ hmem).2
  have hedge : hasEdgeE g.edges (g.edges.getD k dE).source
      (g.edges.getD k dE).target = true := by
    unfold hasEdgeE
    simp only [List.any_eq_true, Bool.and_eq_true, beq_iff_eq]
    exact ⟨_, hmem, rfl, rfl⟩
  have hdur : stepDurE g.edges (g.edges.getD k dE).source
      (g.edges.getD k dE).target = (g.edges.getD k dE).task.duration :=
    hPC _ hmem
  have hfbu := nodeFB_pertOut hok hs hu
  have hfbv := nodeFB_pertOut hok hs hv
  have hlfv := nodeLF_pertOut hok hs he hv
  have hstep := fb_step hAC hWI hs2 hs3 hSM hedge hu hv
  rw [hdur] at hstep
  have htri := fb_triangle hAC hWI hs3 he3 hSM hv
  have hboundLF : ∀ p, IsSP g.nodes.length g.edges (g.edges.getD k dE).target e2 p →
      stepSumE g.edges p ≤ fbE g.nodes.length g.edges s e2 := by
    intro p hp
    have := fb_concat_bound hAC hWI hs3 hSM hv hp
    omega
  have hlfval : nodeLF g' (g.edges.getD k dE).target =
      fbE g.nodes.length g.edges s e2 -
        fbE g.nodes.length g.edges (g.edges.getD k dE).target e2 := by
    rw [hlfv, lfE_eq hSM (fbE_lt_W s e2 hSM) hboundLF]
  have hfbW := fbE_lt_W (n := g.nodes.length) (E := g.edges) s
    (g.edges.getD k dE).target hSM
  have hTW := fbE_lt_W (n := g.nodes.length) (E := g.edges) s e2 hSM
  refine ⟨?_, ?_, ?_, ?_⟩
  · rw [hfbu, hfbv]
    exact hstep
  · rw [hfbv, hlfval]
    omega
  · rw [hlfval]
    omega
  · rw [hfbu, hlfval]
    omega

/-- C4 (amended): for every acyclic network accepted by the pipeline whose
parallel edges are duration-consistent and whose path duration sums fit in
u32, the two unsigned subtractions of the float computation never
underflow: for every edge u → v with duration d, both latestFinish[v] and
fastestBegin[v] are at least fastestBegin[u] + d, and the stored floats
are the exact non-negative differences. -/
theorem claimC4_amended (g g' : PertGraph) (hok : Pert.new g = .ok g')
    (hAC : AcyclicE g.nodes.length g.edges)
    (hWI : wellIndexed g.nodes.length g.edges)
    (hPC : ParallelConsistent g.edges)
    (hSM : g.nodes.length * totalDur g.edges < W) :
    ∀ k, k < g'.edges.length →
      nodeFB g' (g'.edges.getD k dE).source + (g'.edges.getD k dE).task.duration ≤
        nodeFB g' (g'.edges.getD k dE).target ∧
      nodeFB g' (g'.edges.getD k dE).source + (g'.edges.getD k dE).task.duration ≤
        nodeLF g' (g'.edges.getD k dE).target ∧
      (g'.edges.getD k dE).task.total_float =
        nodeLF g' (g'.edges.getD k dE).target -
          (nodeFB g' (g'.edges.getD k dE).source +
            (g'.edges.getD k dE).task.duration) ∧
      (g'.edges.getD k dE).task.free_float =
        nodeFB g' (g'.edges.getD k dE).target -
          (nodeFB g' (g'.edges.getD k dE).source +
            (g'.edges.getD k dE).task.duration) := by
  intro k hk
  obtain ⟨hb1, hb2, hb3, hb4⟩ := edge_bounds hok hAC hWI hPC hSM k hk
  obtain ⟨hf1, hf2⟩ := float_fields g g' hok k hk
  have hxW : nodeFB g' (g'.edges.getD k dE).source +
      (g'.edges.getD k dE).task.duration < W := by omega
  have hmod : (nodeFB g' (g'.edges.getD k dE).source +
      (g'.edges.getD k dE).task.duration) % W =
      nodeFB g' (g'.edges.getD k dE).source +
        (g'.edges.getD k dE).task.duration := Nat.mod_eq_of_lt hxW
  refine ⟨hb1, hb4, ?_, ?_⟩
  · rw [hf1, hmod, wsub_eq_sub hb3 hb4]
  · rw [hf2, hmod, wsub_eq_sub (by omega) hb1]

set_option maxRecDepth 8000 in
/-- Witness for C4 (amended) at the diamond network, edge 0. -/
theorem claimC4_witness :
    nodeFB (pertOut wG) ((pertOut wG).edges.getD 0 dE).source +
      ((pertOut wG).edges.getD 0 dE).task.duration ≤
    nodeFB (pertOut wG) ((pertOut wG).edges.getD 0 dE).target :=
  (claimC4_amended wG (pertOut wG) (by decide) (acyclicB_sound (by decide))
    (by decide) (by decide) (by decide) 0 (by decide)).1

/-- C7 (amended): for every acyclic network accepted by the pipeline whose
parallel edges are duration-consistent and whose path duration sums fit in
u32, every finished edge satisfies freeFloat ≤ totalFloat. -/
theorem claimC7_amended (g g' : PertGraph) (hok : Pert.new g = .ok g')
    (hAC : AcyclicE g.nodes.length g.edges)
    (hWI : wellIndexed g.nodes.length g.edges)
    (hPC : ParallelConsistent g.edges)
    (hSM : g.nodes.length * totalDur g.edges < W) :
    ∀ k, k < g'.edges.length →
      (g'.edges.getD k dE).task.free_float ≤
        (g'.edges.getD k dE).task.total_float := by
  intro k hk
  obtain ⟨hb1, hb2, hb3, hb4⟩ := edge_bounds hok hAC hWI hPC hSM k hk
  obtain ⟨hf1, hf2⟩ := float_fields g g' hok k hk
  have hxW : nodeFB g' (g'.edges.getD k dE).source +
      (g'.edges.getD k dE).task.duration < W := by omega
  have hmod : (nodeFB g' (g'.edges.getD k dE).source +
      (g'.edges.getD k dE).task.duration) % W =
      nodeFB g' (g'.edges.getD k dE).source +
        (g'.edges.getD k dE).task.duration := Nat.mod_eq_of_lt hxW
  rw [hf1, hf2, hmod, wsub_eq_sub hb3 hb4, wsub_eq_sub (by omega) hb1]
  omega

set_option maxRecDepth 8000 in
/-- Witness for C7 (amended) at the diamond network, edge 0. -/
theorem claimC7_witness :
    ((pertOut wG).edges.getD 0 dE).task.free_float ≤
      ((pertOut wG).edges.getD 0 dE).task.total_float :=
  claimC7_amended wG (pertOut wG) (by decide) (acyclicB_sound (by decide))
    (by decide) (by decide) (by decide) 0 (by decide)

/-- C2 (amended): for every acyclic network accepted by the pipeline whose
parallel edges are duration-consistent and whose path duration sums fit in
u32, the computed latest_finish of every node equals the minimum, over all
simple paths from the node to the end node, of T minus the sum of the
durations along the path, where T is the already computed fastest_begin of
the end node; and it equals T itself for the end node (or any node with no
path to the end, where the minimum defaults to T). -/
theorem claimC2_amended (g g' : PertGraph) (s e : Nat)
    (hok : Pert.new g = .ok g') (hs : start_node g = .ok s)
    (he : end_node g = .ok e)
    (hAC : AcyclicE g.nodes.length g.edges)
    (hWI : wellIndexed g.nodes.length g.edges)
    (hPC : ParallelConsistent g.edges)
    (hSM : g.nodes.length * totalDur g.edges < W) :
    (∀ i, i < g.nodes.length →
      nodeLF g' i =
        specLatestFinish g.nodes.length g.edges (nodeFB g' e) i e) ∧
    nodeLF g' e = nodeFB g' e := by
  obtain ⟨hs1, hs2, hs3⟩ := start_node_ok_iff.mp hs
  obtain ⟨he1, he2d, he3⟩ := end_node_ok_iff.mp he
  have hTe : nodeFB g' e = fbE g.nodes.length g.edges s e :=
    nodeFB_pertOut hok hs he1
  constructor
  · intro i hi
    have hlfi := nodeLF_pertOut hok hs he hi
    have hbound : ∀ p, IsSP g.nodes.length g.edges i e p →
        stepSumE g.edges p ≤ fbE g.nodes.length g.edges s e := by
      intro p hp
      have := fb_concat_bound hAC hWI hs3 hSM hi hp
      omega
    rw [hlfi, lfE_eq hSM (fbE_lt_W s e hSM) hbound, hTe, specLF_eq,
      ← fbE_eq_spec hPC hSM i e]
  · have hlfe := nodeLF_pertOut hok hs he he1
    rw [hlfe, lfE_self, hTe]

set_option maxRecDepth 8000 in
/-- Witness for C2 (amended) at the diamond network, node 1 (event 2). -/
theorem claimC2_witness :
    nodeLF (pertOut wG) 1 =
      specLatestFinish wG.nodes.length wG.edges (nodeFB (pertOut wG) 3) 1 3 :=
  (claimC2_amended wG (pertOut wG) 0 3 (by decide) (by decide) (by decide)
    (acyclicB_sound (by decide)) (by decide) (by decide) (by decide)).1 1
    (by decide)

/-!  Relabeling invariance: the schedule does not depend on the node
allocation order (claim C10). -/

theorem emap_roundtrip {n : Nat} {E : List PEdge} {σ τ : Nat → Nat}
    (hτσ : ∀ i, i < n → τ (σ i) = i) (hWI : wellIndexed n E) :
    (E.map (emap σ)).map (emap τ) = E := by
  rw [List.map_map]
  have : ∀ e ∈ E, (emap τ ∘ emap σ) e = e := by
    intro e he
    obtain ⟨h1, h2⟩ := hWI e he
    simp [emap, Function.comp, hτσ e.source h1, hτσ e.target h2]
  rw [List.map_congr_left this]
  simp

theorem relabel_inj {n : Nat} {σ τ : Nat → Nat}
    (hτσ : ∀ i, i < n → τ (σ i) = i) {a b : Nat} (ha : a < n) (hb : b < n)
    (h : σ a = σ b) : a = b := by
  have := congrArg τ h
  rw [hτσ a ha, hτσ b hb] at this
  exact this

theorem beq_relabel {n : Nat} {σ τ : Nat → Nat}
    (hτσ : ∀ i, i < n → τ (σ i) = i) {a b : Nat} (ha : a < n) (hb : b < n) :
    (σ a == σ b) = (a == b) := by
  by_cases h : a = b
  · subst h
    simp
  · have h2 : σ a ≠ σ b := fun hc => h (relabel_inj hτσ ha hb hc)
    simp [h, h2]

theorem hasEdgeE_iff {E : List PEdge} {u v : Nat} :
    hasEdgeE E u v = true ↔ ∃ e ∈ E, e.source = u ∧ e.target = v := by
  simp [hasEdgeE, List.any_eq_true]

theorem hasEdgeE_relabel {n : Nat} {E : List PEdge} {σ τ : Nat → Nat}
    (hτσ : ∀ i, i < n → τ (σ i) = i) (hWI : wellIndexed n E)
    {u v : Nat} (hu : u < n) (hv : v < n) :
    hasEdgeE (E.map (emap σ)) (σ u) (σ v) = hasEdgeE E u v := by
  cases h2 : hasEdgeE E u v with
  | true =>
    obtain ⟨e, he, h3, h4⟩ := hasEdgeE_iff.mp h2
    apply hasEdgeE_iff.mpr
    exact ⟨emap σ e, List.mem_map_of_mem _ he, by rw [emap, h3], by rw [emap, h4]⟩
  | false =>
    cases h1 : hasEdgeE (E.map (emap σ)) (σ u) (σ v) with
    | false => rfl
    | true =>
      exfalso
      obtain ⟨e2, he2, h3, h4⟩ := hasEdgeE_iff.mp h1
      obtain ⟨e, he, rfl⟩ := List.mem_map.mp he2
      obtain ⟨hb1, hb2⟩ := hWI e he
      have h5 : e.source = u := relabel_inj hτσ hb1 hu h3
      have h6 : e.target = v := relabel_inj hτσ hb2 hv h4
      have : hasEdgeE E u v = true := hasEdgeE_iff.mpr ⟨e, he, h5, h6⟩
      rw [h2] at this
      cases this

theorem findEdgeE_relabel {n : Nat} {E : List PEdge} {σ τ : Nat → Nat}
    (hτσ : ∀ i, i < n → τ (σ i) = i) (hWI : wellIndexed n E)
    {u v : Nat} (hu : u < n) (hv : v < n) :
    findEdgeE (E.map (emap σ)) (σ u) (σ v) = findEdgeE E u v := by
  unfold findEdgeE
  rw [List.length_map]
  congr 1
  apply List.filter_congr
  intro k hk
  rw [List.mem_range] at hk
  rw [getD_map dE dE (by simpa using hk)]
  obtain ⟨hb1, hb2⟩ := hWI (E.getD k dE) (by
    rw [List.getD_eq_getElem _ _ hk]
    exact List.getElem_mem hk)
  show ((emap σ (E.getD k dE)).source == σ u && (emap σ (E.getD k dE)).target == σ v) =
    ((E.getD k dE).source == u && (E.getD k dE).target == v)
  unfold emap
  simp only
  rw [beq_relabel hτσ hb1 hu, beq_relabel hτσ hb2 hv]

theorem stepDurE_relabel {n : Nat} {E : List PEdge} {σ τ : Nat → Nat}
    (hτσ : ∀ i, i < n → τ (σ i) = i) (hWI : wellIndexed n E)
    {u v : Nat} (hu : u < n) (hv : v < n) :
    stepDurE (E.map (emap σ)) (σ u) (σ v) = stepDurE E u v := by
  unfold stepDurE
  rw [findEdgeE_relabel hτσ hWI hu hv]
  cases hf : findEdgeE E u v with
  | none => rfl
  | some k =>
    have hkmem : k ∈ (List.range E.length).filter fun j =>
        (E.getD j dE).source == u && (E.getD j dE).target == v := by
      unfold findEdgeE at hf
      exact mem_of_getLast?_eq hf
    simp only [List.mem_filter, List.mem_range] at hkmem
    show ((List.map (emap σ) E).getD k dE).task.duration = (E.getD k dE).task.duration
    rw [getD_map dE dE (by simpa using hkmem.1)]
    rfl

theorem wellIndexed_relabel {n : Nat} {E : List PEdge} {σ : Nat → Nat}
    (hσ : ∀ i, i < n → σ i < n) (hWI : wellIndexed n E) :
    wellIndexed n (E.map (emap σ)) := by
  intro e2 he2
  obtain ⟨e, he, rfl⟩ := List.mem_map.mp he2
  obtain ⟨h1, h2⟩ := hWI e he
  exact ⟨hσ _ h1, hσ _ h2⟩

theorem SP_relabel {n : Nat} {E : List PEdge} {σ τ : Nat → Nat}
    (hσ : ∀ i, i < n → σ i < n) (hτσ : ∀ i, i < n → τ (σ i) = i)
    (hWI : wellIndexed n E) {a b : Nat} {p : List Nat}
    (hp : IsSP n E a b p) : IsSP n (E.map (emap σ)) (σ a) (σ b) (p.map σ) := by
  obtain ⟨hh, hl, hlen, hb, hnd, hch⟩ := hp
  refine ⟨?_, ?_, ?_, ?_, ?_, ?_⟩
  · rw [List.head?_map, hh]
    rfl
  · rw [List.getLast?_map, hl]
    rfl
  · simpa using hlen
  · intro x hx
    obtain ⟨y, hy, rfl⟩ := List.mem_map.mp hx
    exact hσ y (hb y hy)
  · exact List.Nodup.map_on (fun x hx y hy hxy =>
      relabel_inj hτσ (hb x hx) (hb y hy) hxy) hnd
  · intro uv huv
    rw [pairsOf_map] at huv
    obtain ⟨r, hr, rfl⟩ := List.mem_map.mp huv
    obtain ⟨hm1, hm2⟩ := pairsOf_mem hr
    rw [hasEdgeE_relabel hτσ hWI (hb _ hm1) (hb _ hm2)]
    exact hch r hr

theorem durs_relabel {n : Nat} {E : List PEdge} {σ τ : Nat → Nat}
    (hτσ : ∀ i, i < n → τ (σ i) = i) (hWI : wellIndexed n E)
    {p : List Nat} (hb : ∀ x ∈ p, x < n) :
    durListE (E.map (emap σ)) (p.map σ) = durListE E p := by
  unfold durListE
  rw [pairsOf_map, List.map_map]
  apply List.map_congr_left
  intro uv huv
  obtain ⟨hm1, hm2⟩ := pairsOf_mem huv
  exact stepDurE_relabel hτσ hWI (hb _ hm1) (hb _ hm2)

theorem fbE_relabel {n : Nat} {E : List PEdge} {σ τ : Nat → Nat}
    (hσ : ∀ i, i < n → σ i < n) (hτ : ∀ j, j < n → τ j < n)
    (hτσ : ∀ i, i < n → τ (σ i) = i) (hστ : ∀ j, j < n → σ (τ j) = j)
    (hWI : wellIndexed n E) {a b : Nat} (ha : a < n) (hb2 : b < n) :
    fbE n (E.map (emap σ)) (σ a) (σ b) = fbE n E a b := by
  have hWI2 : wellIndexed n (E.map (emap σ)) := wellIndexed_relabel hσ hWI
  have hrt : (E.map (emap σ)).map (emap τ) = E := emap_roundtrip hτσ hWI
  unfold fbE
  rw [listMax?_congr]
  intro x
  simp only [List.mem_map]
  constructor
  · rintro ⟨q, hq, rfl⟩
    have hq2 := mem_simplePathsE.mp hq
    have hqb : ∀ y ∈ q, y < n := hq2.2.2.2.1
    have hp : IsSP n ((E.map (emap σ)).map (emap τ)) (τ (σ a)) (τ (σ b)) (q.map τ) :=
      SP_relabel hτ hστ hWI2 hq2
    rw [hrt, hτσ a ha, hτσ b hb2] at hp
    refine ⟨q.map τ, mem_simplePathsE.mpr hp, ?_⟩
    have hd : durListE ((E.map (emap σ)).map (emap τ)) ((q.map τ)) =
        durListE (E.map (emap σ)) q := by
      have := durs_relabel (σ := τ) (τ := σ) hστ hWI2 hqb
      exact this
    rw [hrt] at hd
    rw [hd]
  · rintro ⟨p, hp, rfl⟩
    have hsp := mem_simplePathsE.mp hp
    refine ⟨p.map σ, mem_simplePathsE.mpr (SP_relabel hσ hτσ hWI hsp), ?_⟩
    rw [durs_relabel hτσ hWI hsp.2.2.2.1]

theorem lfE_relabel {n : Nat} {E : List PEdge} {σ τ : Nat → Nat}
    (hσ : ∀ i, i < n → σ i < n) (hτ : ∀ j, j < n → τ j < n)
    (hτσ : ∀ i, i < n → τ (σ i) = i) (hστ : ∀ j, j < n → σ (τ j) = j)
    (hWI : wellIndexed n E) (T : Nat) {a b : Nat} (ha : a < n) (hb2 : b < n) :
    lfE n (E.map (emap σ)) T (σ a) (σ b) = lfE n E T a b := by
  have hWI2 : wellIndexed n (E.map (emap σ)) := wellIndexed_relabel hσ hWI
  have hrt : (E.map (emap σ)).map (emap τ) = E := emap_roundtrip hτσ hWI
  unfold lfE
  rw [listMin?_congr]
  intro x
  simp only [List.mem_map]
  constructor
  · rintro ⟨q, hq, rfl⟩
    have hq2 := mem_simplePathsE.mp hq
    have hqb : ∀ y ∈ q, y < n := hq2.2.2.2.1
    have hp : IsSP n ((E.map (emap σ)).map (emap τ)) (τ (σ a)) (τ (σ b)) (q.map τ) :=
      SP_relabel hτ hστ hWI2 hq2
    rw [hrt, hτσ a ha, hτσ b hb2] at hp
    refine ⟨q.map τ, mem_simplePathsE.mpr hp, ?_⟩
    have hd : durListE ((E.map (emap σ)).map (emap τ)) ((q.map τ)) =
        durListE (E.map (emap σ)) q := by
      have := durs_relabel (σ := τ) (τ := σ) hστ hWI2 hqb
      exact this
    rw [hrt] at hd
    rw [hd]
  · rintro ⟨p, hp, rfl⟩
    have hsp := mem_simplePathsE.mp hp
    refine ⟨p.map σ, mem_simplePathsE.mpr (SP_relabel hσ hτσ hWI hsp), ?_⟩
    rw [durs_relabel hτσ hWI hsp.2.2.2.1]

theorem InDeg0_relabel {n : Nat} {E : List PEdge} {σ τ : Nat → Nat}
    (hτσ : ∀ i, i < n → τ (σ i) = i) (hWI : wellIndexed n E)
    {i : Nat} (hi : i < n) :
    InDeg0 (E.map (emap σ)) (σ i) ↔ InDeg0 E i := by
  constructor
  · intro h e he hc
    apply h (emap σ e) (List.mem_map_of_mem _ he)
    show σ e.target = σ i
    rw [hc]
  · intro h e2 he2 hc
    obtain ⟨e, he, rfl⟩ := List.mem_map.mp he2
    exact h e he (relabel_inj hτσ (hWI e he).2 hi hc)

theorem OutDeg0_relabel {n : Nat} {E : List PEdge} {σ τ : Nat → Nat}
    (hτσ : ∀ i, i < n → τ (σ i) = i) (hWI : wellIndexed n E)
    {i : Nat} (hi : i < n) :
    OutDeg0 (E.map (emap σ)) (σ i) ↔ OutDeg0 E i := by
  constructor
  · intro h e he hc
    apply h (emap σ e) (List.mem_map_of_mem _ he)
    show σ e.source = σ i
    rw [hc]
  · intro h e2 he2 hc
    obtain ⟨e, he, rfl⟩ := List.mem_map.mp he2
    exact h e he (relabel_inj hτσ (hWI e he).1 hi hc)

/-!  toGraph structure lemmas and the index-translation maps between two
iteration orders of the label set. -/

theorem toGraph_nodes_len (rows : List Row) (o : List Nat) :
    (toGraph rows o).nodes.length = o.length := by
  simp [toGraph]

theorem toGraph_edges_len (rows : List Row) (o : List Nat) :
    (toGraph rows o).edges.length = rows.length := by
  simp [toGraph]

theorem mem_rowLabels {rows : List Row} {r : Row} (hr : r ∈ rows) :
    r.src ∈ rowLabels rows ∧ r.dst ∈ rowLabels rows :=
  ⟨List.mem_flatMap.mpr ⟨r, hr, by simp⟩, List.mem_flatMap.mpr ⟨r, hr, by simp⟩⟩

theorem toGraph_wellIndexed {rows : List Row} {o : List Nat}
    (hm : ∀ l ∈ rowLabels rows, l ∈ o) :
    wellIndexed o.length (toGraph rows o).edges := by
  intro e he
  simp only [toGraph, List.mem_map] at he
  obtain ⟨r, hr, rfl⟩ := he
  obtain ⟨h1, h2⟩ := mem_rowLabels hr
  exact ⟨List.indexOf_lt_length.mpr (hm _ h1), List.indexOf_lt_length.mpr (hm _ h2)⟩

theorem order_getD_mem {o : List Nat} {i : Nat} (hi : i < o.length) :
    o.getD i 0 ∈ o := by
  rw [List.getD_eq_getElem _ _ hi]
  exact List.getElem_mem hi

theorem indexOf_getD_indexOf {o1 o2 : List Nat} {x : Nat} (hx : x ∈ o1) :
    o2.indexOf (o1.getD (o1.indexOf x) 0) = o2.indexOf x := by
  have hlt : o1.indexOf x < o1.length := List.indexOf_lt_length.mpr hx
  rw [List.getD_eq_getElem _ _ hlt, List.getElem_indexOf hlt]

theorem order_sigma_lt {o1 o2 : List Nat} (hsub : ∀ l ∈ o1, l ∈ o2)
    {i : Nat} (hi : i < o1.length) :
    o2.indexOf (o1.getD i 0) < o2.length :=
  List.indexOf_lt_length.mpr (hsub _ (order_getD_mem hi))

theorem order_tau_sigma {o1 o2 : List Nat} (hn1 : o1.Nodup)
    (hsub : ∀ l ∈ o1, l ∈ o2) {i : Nat} (hi : i < o1.length) :
    o1.indexOf (o2.getD (o2.indexOf (o1.getD i 0)) 0) = i := by
  have hm2 : o1.getD i 0 ∈ o2 := hsub _ (order_getD_mem hi)
  have hlt : o2.indexOf (o1.getD i 0) < o2.length := List.indexOf_lt_length.mpr hm2
  rw [List.getD_eq_getElem _ _ hlt, List.getElem_indexOf hlt]
  rw [List.getD_eq_getElem _ _ hi]
  have h2 : o1.indexOf o1[i] < o1.length :=
    List.indexOf_lt_length.mpr (List.getElem_mem hi)
  have he : o1[o1.indexOf o1[i]] = o1[i] := List.getElem_indexOf h2
  exact (List.Nodup.getElem_inj_iff hn1).mp he

theorem order_setup {o1 o2 L : List Nat}
    (hn1 : o1.Nodup) (hn2 : o2.Nodup)
    (hm1 : ∀ l, l ∈ o1 ↔ l ∈ L) (hm2 : ∀ l, l ∈ o2 ↔ l ∈ L) :
    o2.length = o1.length ∧
    (∀ i, i < o1.length → o2.indexOf (o1.getD i 0) < o1.length) ∧
    (∀ j, j < o1.length → o1.indexOf (o2.getD j 0) < o1.length) ∧
    (∀ i, i < o1.length → o1.indexOf (o2.getD (o2.indexOf (o1.getD i 0)) 0) = i) ∧
    (∀ j, j < o1.length → o2.indexOf (o1.getD (o1.indexOf (o2.getD j 0)) 0) = j) := by
  have hsub12 : ∀ l ∈ o1, l ∈ o2 := fun l hl => (hm2 l).mpr ((hm1 l).mp hl)
  have hsub21 : ∀ l ∈ o2, l ∈ o1 := fun l hl => (hm1 l).mpr ((hm2 l).mp hl)
  have hperm : o1.Perm o2 :=
    (List.perm_ext_iff_of_nodup hn1 hn2).mpr fun a => ⟨hsub12 a, hsub21 a⟩
  have hlen : o2.length = o1.length := hperm.length_eq.symm
  refine ⟨hlen, ?_, ?_, ?_, ?_⟩
  · intro i hi
    rw [← hlen]
    exact order_sigma_lt hsub12 hi
  · intro j hj
    exact order_sigma_lt hsub21 (by rw [hlen]; exact hj)
  · intro i hi
    exact order_tau_sigma hn1 hsub12 hi
  · intro j hj
    exact order_tau_sigma hn2 hsub21 (by rw [hlen]; exact hj)

theorem toGraph_edges_relabel (rows : List Row) (o1 o2 : List Nat)
    (hsub : ∀ l ∈ rowLabels rows, l ∈ o1) :
    (toGraph rows o2).edges =
      (toGraph rows o1).edges.map (emap fun i => o2.indexOf (o1.getD i 0)) := by
  simp only [toGraph, List.map_map]
  apply List.map_congr_left
  intro r hr
  obtain ⟨h1, h2⟩ := mem_rowLabels hr
  simp only [Function.comp, emap]
  rw [indexOf_getD_indexOf (hsub _ h1), indexOf_getD_indexOf (hsub _ h2)]

/-!  Transfer of the start/end validators and the two passes along a
relabeling. -/

theorem start_node_relabel {g1 g2 : PertGraph} {σ τ : Nat → Nat} {n : Nat}
    (hl1 : g1.nodes.length = n) (hl2 : g2.nodes.length = n)
    (hE : g2.edges = g1.edges.map (emap σ))
    (hσ : ∀ i, i < n → σ i < n) (hτ : ∀ j, j < n → τ j < n)
    (hτσ : ∀ i, i < n → τ (σ i) = i) (hστ : ∀ j, j < n → σ (τ j) = j)
    (hWI : wellIndexed n g1.edges)
    {s : Nat} (hs : start_node g1 = .ok s) :
    start_node g2 = .ok (σ s) := by
  rw [start_node_ok_iff] at hs ⊢
  rw [hl1] at hs
  rw [hl2, hE]
  obtain ⟨h1, h2, h3⟩ := hs
  refine ⟨hσ s h1, (InDeg0_relabel hτσ hWI h1).mpr h2, ?_⟩
  intro j hj hj2
  have hjτ : τ j < n := hτ j hj
  have hiff := InDeg0_relabel (σ := σ) hτσ hWI hjτ
  rw [hστ j hj] at hiff
  have heq := h3 (τ j) hjτ (hiff.mp hj2)
  calc j = σ (τ j) := (hστ j hj).symm
    _ = σ s := by rw [heq]

theorem end_node_relabel {g1 g2 : PertGraph} {σ τ : Nat → Nat} {n : Nat}
    (hl1 : g1.nodes.length = n) (hl2 : g2.nodes.length = n)
    (hE : g2.edges = g1.edges.map (emap σ))
    (hσ : ∀ i, i < n → σ i < n) (hτ : ∀ j, j < n → τ j < n)
    (hτσ : ∀ i, i < n → τ (σ i) = i) (hστ : ∀ j, j < n → σ (τ j) = j)
    (hWI : wellIndexed n g1.edges)
    {e : Nat} (he : end_node g1 = .ok e) :
    end_node g2 = .ok (σ e) := by
  rw [end_node_ok_iff] at he ⊢
  rw [hl1] at he
  rw [hl2, hE]
  obtain ⟨h1, h2, h3⟩ := he
  refine ⟨hσ e h1, (OutDeg0_relabel hτσ hWI h1).mpr h2, ?_⟩
  intro j hj hj2
  have hjτ : τ j < n := hτ j hj
  have hiff := OutDeg0_relabel (σ := σ) hτσ hWI hjτ
  rw [hστ j hj] at hiff
  have heq := h3 (τ j) hjτ (hiff.mp hj2)
  calc j = σ (τ j) := (hστ j hj).symm
    _ = σ e := by rw [heq]

theorem toGraph_start_relabel {rows : List Row} {o1 o2 : List Nat}
    (hn1 : o1.Nodup) (hn2 : o2.Nodup)
    (hm1 : ∀ l, l ∈ o1 ↔ l ∈ rowLabels rows)
    (hm2 : ∀ l, l ∈ o2 ↔ l ∈ rowLabels rows)
    {s : Nat} (hs : start_node (toGraph rows o1) = .ok s) :
    start_node (toGraph rows o2) = .ok (o2.indexOf (o1.getD s 0)) := by
  obtain ⟨hlen, hσ, hτ, hτσ, hστ⟩ := order_setup hn1 hn2 hm1 hm2
  exact start_node_relabel (σ := fun i => o2.indexOf (o1.getD i 0))
    (τ := fun j => o1.indexOf (o2.getD j 0))
    (toGraph_nodes_len rows o1) ((toGraph_nodes_len rows o2).trans hlen)
    (toGraph_edges_relabel rows o1 o2 fun l hl => (hm1 l).mpr hl)
    hσ hτ hτσ hστ (toGraph_wellIndexed fun l hl => (hm1 l).mpr hl) hs

theorem toGraph_end_relabel {rows : List Row} {o1 o2 : List Nat}
    (hn1 : o1.Nodup) (hn2 : o2.Nodup)
    (hm1 : ∀ l, l ∈ o1 ↔ l ∈ rowLabels rows)
    (hm2 : ∀ l, l ∈ o2 ↔ l ∈ rowLabels rows)
    {e : Nat} (he : end_node (toGraph rows o1) = .ok e) :
    end_node (toGraph rows o2) = .ok (o2.indexOf (o1.getD e 0)) := by
  obtain ⟨hlen, hσ, hτ, hτσ, hστ⟩ := order_setup hn1 hn2 hm1 hm2
  exact end_node_relabel (σ := fun i => o2.indexOf (o1.getD i 0))
    (τ := fun j => o1.indexOf (o2.getD j 0))
    (toGraph_nodes_len rows o1) ((toGraph_nodes_len rows o2).trans hlen)
    (toGraph_edges_relabel rows o1 o2 fun l hl => (hm1 l).mpr hl)
    hσ hτ hτσ hστ (toGraph_wellIndexed fun l hl => (hm1 l).mpr hl) he

theorem toGraph_fbE_relabel {rows : List Row} {o1 o2 : List Nat}
    (hn1 : o1.Nodup) (hn2 : o2.Nodup)
    (hm1 : ∀ l, l ∈ o1 ↔ l ∈ rowLabels rows)
    (hm2 : ∀ l, l ∈ o2 ↔ l ∈ rowLabels rows)
    {a b : Nat} (ha : a < o1.length) (hb : b < o1.length) :
    fbE o1.length (toGraph rows o2).edges
        (o2.indexOf (o1.getD a 0)) (o2.indexOf (o1.getD b 0)) =
      fbE o1.length (toGraph rows o1).edges a b := by
  obtain ⟨hlen, hσ, hτ, hτσ, hστ⟩ := order_setup hn1 hn2 hm1 hm2
  rw [toGraph_edges_relabel rows o1 o2 fun l hl => (hm1 l).mpr hl]
  exact fbE_relabel (σ := fun i => o2.indexOf (o1.getD i 0))
    (τ := fun j => o1.indexOf (o2.getD j 0)) hσ hτ hτσ hστ
    (toGraph_wellIndexed fun l hl => (hm1 l).mpr hl) ha hb

theorem toGraph_lfE_relabel {rows : List Row} {o1 o2 : List Nat}
    (hn1 : o1.Nodup) (hn2 : o2.Nodup)
    (hm1 : ∀ l, l ∈ o1 ↔ l ∈ rowLabels rows)
    (hm2 : ∀ l, l ∈ o2 ↔ l ∈ rowLabels rows)
    (T : Nat) {a b : Nat} (ha : a < o1.length) (hb : b < o1.length) :
    lfE o1.length (toGraph rows o2).edges T
        (o2.indexOf (o1.getD a 0)) (o2.indexOf (o1.getD b 0)) =
      lfE o1.length (toGraph rows o1).edges T a b := by
  obtain ⟨hlen, hσ, hτ, hτσ, hστ⟩ := order_setup hn1 hn2 hm1 hm2
  rw [toGraph_edges_relabel rows o1 o2 fun l hl => (hm1 l).mpr hl]
  exact lfE_relabel (σ := fun i => o2.indexOf (o1.getD i 0))
    (τ := fun j => o1.indexOf (o2.getD j 0)) hσ hτ hτσ hστ
    (toGraph_wellIndexed fun l hl => (hm1 l).mpr hl) T ha hb

theorem pert_ok_transfer {rows : List Row} {o1 o2 : List Nat}
    (hn1 : o1.Nodup) (hn2 : o2.Nodup)
    (hm1 : ∀ l, l ∈ o1 ↔ l ∈ rowLabels rows)
    (hm2 : ∀ l, l ∈ o2 ↔ l ∈ rowLabels rows)
    {g1' : PertGraph} (h : Pert.new (toGraph rows o1) = .ok g1') :
    ∃ g2', Pert.new (toGraph rows o2) = .ok g2' := by
  obtain ⟨s, e, hs1, he1, -⟩ := pertNew_ok_iff.mp h
  rw [end_node_setFB] at he1
  have hs2 := toGraph_start_relabel hn1 hn2 hm1 hm2 hs1
  have he2 := toGraph_end_relabel hn1 hn2 hm1 hm2 he1
  exact ⟨_, pertNew_ok_iff.mpr ⟨_, _, hs2, by rw [end_node_setFB]; exact he2, rfl⟩⟩

theorem schedule_transfer {rows : List Row} {o1 o2 : List Nat}
    (hn1 : o1.Nodup) (hn2 : o2.Nodup)
    (hm1 : ∀ l, l ∈ o1 ↔ l ∈ rowLabels rows)
    (hm2 : ∀ l, l ∈ o2 ↔ l ∈ rowLabels rows)
    {g1' g2' : PertGraph}
    (h1 : Pert.new (toGraph rows o1) = .ok g1')
    (h2 : Pert.new (toGraph rows o2) = .ok g2')
    {i : Nat} (hi : i < o1.length) :
    nodeFB g2' (o2.indexOf (o1.getD i 0)) = nodeFB g1' i ∧
    nodeLF g2' (o2.indexOf (o1.getD i 0)) = nodeLF g1' i := by
  obtain ⟨hlen, hσ, hτ, hτσ, hστ⟩ := order_setup hn1 hn2 hm1 hm2
  obtain ⟨s, e, hs1, he1, -⟩ := pertNew_ok_iff.mp h1
  rw [end_node_setFB] at he1
  have hs2 := toGraph_start_relabel hn1 hn2 hm1 hm2 hs1
  have he2 := toGraph_end_relabel hn1 hn2 hm1 hm2 he1
  have hsB : s < o1.length := by
    have := (start_node_ok_iff.mp hs1).1
    rwa [toGraph_nodes_len] at this
  have heB : e < o1.length := by
    have := (end_node_ok_iff.mp he1).1
    rwa [toGraph_nodes_len] at this
  have k1 : nodeFB g1' i = fbE o1.length (toGraph rows o1).edges s i := by
    have := nodeFB_pertOut h1 hs1 (i := i) (by rw [toGraph_nodes_len]; exact hi)
    rwa [toGraph_nodes_len] at this
  have k2 : nodeFB g2' (o2.indexOf (o1.getD i 0)) =
      fbE o1.length (toGraph rows o2).edges
        (o2.indexOf (o1.getD s 0)) (o2.indexOf (o1.getD i 0)) := by
    have := nodeFB_pertOut h2 hs2 (i := o2.indexOf (o1.getD i 0))
      (by rw [toGraph_nodes_len, hlen]; exact hσ i hi)
    rwa [toGraph_nodes_len, hlen] at this
  have m1 : nodeLF g1' i =
      lfE o1.length (toGraph rows o1).edges
        (fbE o1.length (toGraph rows o1).edges s e) i e := by
    have := nodeLF_pertOut h1 hs1 he1 (i := i) (by rw [toGraph_nodes_len]; exact hi)
    rwa [toGraph_nodes_len] at this
  have m2 : nodeLF g2' (o2.indexOf (o1.getD i 0)) =
      lfE o1.length (toGraph rows o2).edges
        (fbE o1.length (toGraph rows o2).edges
          (o2.indexOf (o1.getD s 0)) (o2.indexOf (o1.getD e 0)))
        (o2.indexOf (o1.getD i 0)) (o2.indexOf (o1.getD e 0)) := by
    have := nodeLF_pertOut h2 hs2 he2 (i := o2.indexOf (o1.getD i 0))
      (by rw [toGraph_nodes_len, hlen]; exact hσ i hi)
    rwa [toGraph_nodes_len, hlen] at this
  rw [toGraph_fbE_relabel hn1 hn2 hm1 hm2 hsB hi] at k2
  rw [toGraph_fbE_relabel hn1 hn2 hm1 hm2 hsB heB] at m2
  rw [toGraph_lfE_relabel hn1 hn2 hm1 hm2 _ hi heB] at m2
  exact ⟨k2.trans k1.symm, m2.trans m1.symm⟩

/-- C10: building the network from the same ordered row sequence under any
two iteration orders of the distinct-label set yields the same observable
schedule: the pipeline accepts one build exactly when it accepts the other,
each event label receives the same fastest_begin and latest_finish, and
each input row's task receives the same total_float and free_float. -/
theorem claimC10 (rows : List Row) (o1 o2 : List Nat)
    (hn1 : o1.Nodup) (hn2 : o2.Nodup)
    (hc1 : ∀ l ∈ o1, l ∈ rowLabels rows) (hd1 : ∀ l ∈ rowLabels rows, l ∈ o1)
    (hc2 : ∀ l ∈ o2, l ∈ rowLabels rows) (hd2 : ∀ l ∈ rowLabels rows, l ∈ o2) :
    ((∃ h1, Pert.new (toGraph rows o1) = .ok h1) ↔
      ∃ h2, Pert.new (toGraph rows o2) = .ok h2) ∧
    ∀ g1' g2', Pert.new (toGraph rows o1) = .ok g1' →
      Pert.new (toGraph rows o2) = .ok g2' →
      (∀ l ∈ rowLabels rows,
        nodeFB g1' (o1.indexOf l) = nodeFB g2' (o2.indexOf l) ∧
        nodeLF g1' (o1.indexOf l) = nodeLF g2' (o2.indexOf l)) ∧
      ∀ k, k < rows.length →
        (g1'.edges.getD k dE).task.total_float =
          (g2'.edges.getD k dE).task.total_float ∧
        (g1'.edges.getD k dE).task.free_float =
          (g2'.edges.getD k dE).task.free_float := by
  have hm1 : ∀ l, l ∈ o1 ↔ l ∈ rowLabels rows := fun l => ⟨hc1 l, hd1 l⟩
  have hm2 : ∀ l, l ∈ o2 ↔ l ∈ rowLabels rows := fun l => ⟨hc2 l, hd2 l⟩
  constructor
  · constructor
    · rintro ⟨ga, hga⟩
      exact pert_ok_transfer hn1 hn2 hm1 hm2 hga
    · rintro ⟨gb, hgb⟩
      exact pert_ok_transfer hn2 hn1 hm2 hm1 hgb
  · intro g1' g2' h1 h2
    constructor
    · intro l hl
      have hl1 : l ∈ o1 := hd1 l hl
      have hi : o1.indexOf l < o1.length := List.indexOf_lt_length.mpr hl1
      have hgd : o1.getD (o1.indexOf l) 0 = l := by
        rw [List.getD_eq_getElem _ _ hi, List.getElem_indexOf hi]
      have hST := schedule_transfer hn1 hn2 hm1 hm2 h1 h2 hi
      rw [hgd] at hST
      exact ⟨hST.1.symm, hST.2.symm⟩
    · intro k hk
      have hk1 : k < (toGraph rows o1).edges.length := by
        rw [toGraph_edges_len]
        exact hk
      have hk1' : k < g1'.edges.length := by
        rw [(pertOut_edge_parts h1).1]
        exact hk1
      have hk2' : k < g2'.edges.length := by
        rw [(pertOut_edge_parts h2).1, toGraph_edges_len]
        exact hk
      obtain ⟨p1s, p1t, p1d⟩ := (pertOut_edge_parts h1).2 k hk1
      obtain ⟨p2s, p2t, p2d⟩ := (pertOut_edge_parts h2).2 k
        (by rw [toGraph_edges_len]; exact hk)
      obtain ⟨f1t, f1f⟩ := float_fields _ _ h1 k hk1'
      obtain ⟨f2t, f2f⟩ := float_fields _ _ h2 k hk2'
      have hek : (toGraph rows o2).edges.getD k dE =
          emap (fun i => o2.indexOf (o1.getD i 0))
            ((toGraph rows o1).edges.getD k dE) := by
        rw [toGraph_edges_relabel rows o1 o2 hd1]
        exact getD_map dE dE hk1
      have hmem : (toGraph rows o1).edges.getD k dE ∈ (toGraph rows o1).edges := by
        rw [List.getD_eq_getElem _ _ hk1]
        exact List.getElem_mem hk1
      obtain ⟨huB, hvB⟩ := toGraph_wellIndexed hd1 _ hmem
      have hSU := schedule_transfer hn1 hn2 hm1 hm2 h1 h2 huB
      have hSV := schedule_transfer hn1 hn2 hm1 hm2 h1 h2 hvB
      rw [f1t, f2t, f1f, f2f, p1s, p1t, p1d, p2s, p2t, p2d, hek]
      simp only [emap]
      rw [hSU.1, hSV.1, hSV.2]
      exact ⟨rfl, rfl⟩

/-- Witness for C10: the diamond rows of spec Scenario 2 under the
allocation orders [1, 2, 3, 4] and [4, 2, 3, 1] produce identical
schedules. -/
theorem claimC10_witness :
    ([1, 2, 3, 4] : List Nat).Nodup ∧ ([4, 2, 3, 1] : List Nat).Nodup ∧
    (∀ l ∈ ([1, 2, 3, 4] : List Nat), l ∈ rowLabels wRows) ∧
    (∀ l ∈ rowLabels wRows, l ∈ ([1, 2, 3, 4] : List Nat)) ∧
    (∀ l ∈ ([4, 2, 3, 1] : List Nat), l ∈ rowLabels wRows) ∧
    (∀ l ∈ rowLabels wRows, l ∈ ([4, 2, 3, 1] : List Nat)) ∧
    (((∃ h1, Pert.new (toGraph wRows [1, 2, 3, 4]) = .ok h1) ↔
       ∃ h2, Pert.new (toGraph wRows [4, 2, 3, 1]) = .ok h2) ∧
     ∀ g1' g2', Pert.new (toGraph wRows [1, 2, 3, 4]) = .ok g1' →
       Pert.new (toGraph wRows [4, 2, 3, 1]) = .ok g2' →
       (∀ l ∈ rowLabels wRows,
         nodeFB g1' (([1, 2, 3, 4] : List Nat).indexOf l) =
           nodeFB g2' (([4, 2, 3, 1] : List Nat).indexOf l) ∧
         nodeLF g1' (([1, 2, 3, 4] : List Nat).indexOf l) =
           nodeLF g2' (([4, 2, 3, 1] : List Nat).indexOf l)) ∧
       ∀ k, k < wRows.length →
         (g1'.edges.getD k dE).task.total_float =
           (g2'.edges.getD k dE).task.total_float ∧
         (g1'.edges.getD k dE).task.free_float =
           (g2'.edges.getD k dE).task.free_float) :=
  ⟨by decide, by decide, by decide, by decide, by decide, by decide,
    claimC10 wRows [1, 2, 3, 4] [4, 2, 3, 1] (by decide) (by decide)
      (by decide) (by decide) (by decide) (by decide)⟩

end Pertrs
